import Mathlib

/-!
# CleanBookmarks — verification of spec claims

Shallow embedding of the bookmark classification / deduplication / export
pipeline of the CleanBookmarks repository.  Python floats are modelled as
rationals (`ℚ`), Python dicts with insertion order as association lists,
Python strings as `String` / `List Char`.  Library boundaries (the `re`
module, `urllib.parse`, BeautifulSoup, `requests`) are modelled by small
executable functions faithful to their documented behaviour on the inputs
the program feeds them, or abstracted into parameters where a claim
quantifies over their outcome.
-/

namespace CleanBookmarks

/-! ## Common association-list utilities (Python `dict` / `defaultdict(float)`) -/

/-- `defaultdict(float)`-style accumulation: `d[c] += v`, keeping Python's
insertion order of keys. -/
def addScore : List (String × ℚ) → String → ℚ → List (String × ℚ)
  | [], c, v => [(c, v)]
  | (k, s) :: rest, c, v =>
    if k = c then (k, s + v) :: rest else (k, s) :: addScore rest c v

/-- Python `max(d, key=d.get)` over an insertion-ordered dict: the first key
attaining the maximal value (Python's `max` keeps the incumbent on ties). -/
def pyMax (l : List (String × ℚ)) : String × ℚ :=
  match l with
  | [] => ("", 0)
  | x :: xs => xs.foldl (fun b y => if b.2 < y.2 then y else b) x

/-- `sum(d.values())`. -/
def scoresTotal (l : List (String × ℚ)) : ℚ := (l.map (·.2)).sum

/-- `d.get(k, 0)` / `d[k]` on an association list. -/
def lookupScore (l : List (String × ℚ)) (k : String) : ℚ :=
  match l.find? (fun p => p.1 == k) with
  | some p => p.2
  | none => 0

/-- `k in d` on an association list. -/
def hasKey (l : List (String × ℚ)) (k : String) : Bool :=
  l.any (fun p => p.1 == k)

/-- Python `str.lower()` on a character (ASCII range; the bookmarks' URL
schemes, hosts and keywords are ASCII). -/
def charLower (c : Char) : Char :=
  if 'A' ≤ c ∧ c ≤ 'Z' then Char.ofNat (c.toNat + 32) else c

/-- Python `str.lower()` on a character list. -/
def pyLower (l : List Char) : List Char := l.map charLower

/-- Python `str.lower()` on a string. -/
def pyLowerStr (s : String) : String := String.mk (pyLower s.data)

/-- `text.startswith(pat)` on character lists. -/
def listStartsWith : List Char → List Char → Bool
  | _, [] => true
  | [], _ :: _ => false
  | c :: cs, p :: ps => c == p && listStartsWith cs ps

/-- Python substring test `pat in text` on character lists. -/
def listContainsSub : List Char → List Char → Bool
  | [], pat => pat.isEmpty
  | c :: rest, pat => listStartsWith (c :: rest) pat || listContainsSub rest pat

/-! ## Classification results (`ai_classifier.py`)

`ClassificationResult` dataclass and the per-method result dictionaries
(rule engine / ML / semantic / user-profiler / LLM all produce a
category, a confidence and a method tag). -/

/-- One per-method classification result fed to the ensemble
(`ClassificationResult` object or result dict — both carry
method/category/confidence/reasoning). -/
structure MethodResult where
  method : String
  category : String
  confidence : ℚ
  reasoning : List String
deriving Repr, DecidableEq

/-- `ClassificationResult` returned by `AIBookmarkClassifier` (the
`processing_time` field, wall-clock time, is not modelled). -/
structure ClassificationResult where
  category : String
  confidence : ℚ
  subcategory : Option String
  reasoning : List String
  alternatives : List (String × ℚ)
  method : String
deriving Repr, DecidableEq

/-- `method_weights` table of `_ensemble_classification`, with the
`method_weights.get(method, 0.1)` default. -/
def methodWeight (m : String) : ℚ :=
  if m = "rule_engine" then 35/100
  else if m = "machine_learning" then 25/100
  else if m = "semantic_analyzer" then 15/100
  else if m = "user_profiler" then 1/10
  else if m = "llm" then 1/2
  else 1/10

/-- The weighted-voting score dict of `_ensemble_classification`:
`category_scores[category] += confidence * weight` over the result list. -/
def categoryScores (results : List MethodResult) : List (String × ℚ) :=
  results.foldl (fun acc r => addScore acc r.category (r.confidence * methodWeight r.method)) []

/-- `_determine_subcategory`: look the best category up in the
`category_hierarchy` config section and return the first subcategory whose
lowercased name occurs in the lowercased title. -/
def determineSubcategory (hierarchy : List (String × List String)) (title : String)
    (category : String) : Option String :=
  match hierarchy.find? (fun p => p.1 == category) with
  | none => none
  | some (_, subs) => subs.find? (fun s => listContainsSub (pyLower title.data) (pyLower s.data))

/-- `_ensemble_classification`.  `hierarchy` is the `category_hierarchy`
config section and `title` the bookmark title (both only used for the
subcategory determination).  The `method` field joins the set of methods
used; Python's set iteration order is unspecified, modelled here as
first-occurrence order.  Numeric string formatting inside reasoning
messages is elided.  Note: when the total score is zero and at least two
categories are present, CPython would raise `ZeroDivisionError` building
`alternatives`; `ℚ` division by zero yields `0` here (no claim touches
`alternatives`). -/
def ensembleClassification (hierarchy : List (String × List String)) (title : String)
    (results : List MethodResult) : ClassificationResult :=
  if results.isEmpty then
    { category := "未分类", confidence := 0, subcategory := none,
      reasoning := ["没有找到合适的分类方法"], alternatives := [], method := "fallback" }
  else
    let scores := categoryScores results
    if scores.isEmpty then
      { category := "未分类", confidence := 0, subcategory := none,
        reasoning := ["所有分类方法都失败"], alternatives := [], method := "error" }
    else
      let best := pyMax scores
      let total := scoresTotal scores
      let conf := if 0 < total then best.2 / total else best.2
      let alts := (scores.filter (fun p => p.1 ≠ best.1)).map (fun p => (p.1, p.2 / total))
      { category := best.1
        confidence := conf
        subcategory := determineSubcategory hierarchy title best.1
        reasoning := results.flatMap (·.reasoning)
        alternatives := (alts.mergeSort (fun a b => decide (b.2 ≤ a.2))).take 3
        method := "+".intercalate (results.map (·.method)).eraseDups }

/-! ### Basic lemmas about the score dictionaries -/

theorem addScore_ne_nil (l : List (String × ℚ)) (c : String) (v : ℚ) :
    addScore l c v ≠ [] := by
  cases l with
  | nil => simp [addScore]
  | cons p rest =>
    obtain ⟨k, s⟩ := p
    by_cases h : k = c <;> simp [addScore, h]

theorem foldl_addScore_ne_nil (rs : List MethodResult) :
    ∀ acc : List (String × ℚ), acc ≠ [] →
      rs.foldl (fun acc r => addScore acc r.category (r.confidence * methodWeight r.method)) acc ≠ [] := by
  induction rs with
  | nil => intro acc h; simpa using h
  | cons r rest ih =>
    intro acc _
    simpa using ih _ (addScore_ne_nil acc r.category (r.confidence * methodWeight r.method))

theorem categoryScores_ne_nil (results : List MethodResult) (h : results ≠ []) :
    categoryScores results ≠ [] := by
  cases results with
  | nil => exact absurd rfl h
  | cons r rest =>
    unfold categoryScores
    simpa using foldl_addScore_ne_nil rest _ (addScore_ne_nil [] r.category _)

/-- Keys of the score dict after an update. -/
theorem addScore_keys (l : List (String × ℚ)) (c : String) (v : ℚ) :
    (addScore l c v).map (·.1) =
      if c ∈ l.map (·.1) then l.map (·.1) else l.map (·.1) ++ [c] := by
  induction l with
  | nil => simp [addScore]
  | cons p rest ih =>
    obtain ⟨k, s⟩ := p
    by_cases hk : k = c
    · subst hk; simp [addScore]
    · have hck : c ≠ k := fun h => hk h.symm
      simp only [addScore, if_neg hk, List.map_cons]
      rw [ih]
      by_cases hc : c ∈ rest.map (·.1)
      · rw [if_pos hc, if_pos (List.mem_cons_of_mem _ hc)]
      · rw [if_neg hc, if_neg (by
          intro h
          rcases List.mem_cons.mp h with h | h
          · exact hck h
          · exact hc h)]
        rfl

theorem addScore_keys_nodup (l : List (String × ℚ)) (c : String) (v : ℚ)
    (h : (l.map (·.1)).Nodup) : ((addScore l c v).map (·.1)).Nodup := by
  rw [addScore_keys]
  split
  · exact h
  · next hc =>
      rw [List.nodup_append]
      refine ⟨h, List.nodup_singleton c, ?_⟩
      intro a ha hac
      rw [List.mem_singleton] at hac
      exact hc (hac ▸ ha)

theorem categoryScores_keys_nodup (results : List MethodResult) :
    ((categoryScores results).map (·.1)).Nodup := by
  unfold categoryScores
  have : ∀ (rs : List MethodResult) (acc : List (String × ℚ)),
      (acc.map (·.1)).Nodup →
      ((rs.foldl (fun acc r => addScore acc r.category (r.confidence * methodWeight r.method)) acc).map (·.1)).Nodup := by
    intro rs
    induction rs with
    | nil => intro acc h; simpa using h
    | cons r rest ih =>
      intro acc h
      exact ih _ (addScore_keys_nodup acc r.category _ h)
  simpa using this results [] (by simp)

/-- With pairwise-distinct keys, looking up an element's key gives its value. -/
theorem lookupScore_of_mem {l : List (String × ℚ)} {p : String × ℚ}
    (hmem : p ∈ l) (hnd : (l.map (·.1)).Nodup) : lookupScore l p.1 = p.2 := by
  induction l with
  | nil => cases hmem
  | cons q rest ih =>
    simp only [List.map_cons, List.nodup_cons] at hnd
    rcases List.mem_cons.mp hmem with h | h
    · subst h
      simp [lookupScore]
    · have hne : q.1 ≠ p.1 := by
        intro he
        exact hnd.1 (he ▸ (List.mem_map.mpr ⟨p, h, rfl⟩))
      have hbeq : (q.1 == p.1) = false := beq_eq_false_iff_ne.mpr hne
      have hrec := ih h hnd.2
      unfold lookupScore at hrec ⊢
      rw [List.find?_cons_of_neg _ (by simp [hbeq])]
      exact hrec

theorem pyMax_go_mem : ∀ (xs : List (String × ℚ)) (b : String × ℚ),
    xs.foldl (fun b y => if b.2 < y.2 then y else b) b = b ∨
      xs.foldl (fun b y => if b.2 < y.2 then y else b) b ∈ xs
  | [], _ => Or.inl rfl
  | y :: ys, b => by
    simp only [List.foldl_cons]
    rcases pyMax_go_mem ys (if b.2 < y.2 then y else b) with h | h
    · rw [h]
      split
      · exact Or.inr (List.mem_cons_self _ _)
      · exact Or.inl rfl
    · exact Or.inr (List.mem_cons_of_mem _ h)

theorem pyMax_go_ge : ∀ (xs : List (String × ℚ)) (b : String × ℚ),
    b.2 ≤ (xs.foldl (fun b y => if b.2 < y.2 then y else b) b).2 ∧
      ∀ p ∈ xs, p.2 ≤ (xs.foldl (fun b y => if b.2 < y.2 then y else b) b).2
  | [], _ => by simp
  | y :: ys, b => by
    simp only [List.foldl_cons]
    obtain ⟨h1, h2⟩ := pyMax_go_ge ys (if b.2 < y.2 then y else b)
    constructor
    · refine le_trans ?_ h1
      by_cases hlt : b.2 < y.2
      · rw [if_pos hlt]; exact le_of_lt hlt
      · rw [if_neg hlt]
    · intro p hp
      rcases List.mem_cons.mp hp with h | h
      · subst h
        refine le_trans ?_ h1
        by_cases hlt : b.2 < p.2
        · rw [if_pos hlt]
        · rw [if_neg hlt]; exact le_of_not_lt hlt
      · exact h2 p h

theorem pyMax_mem {l : List (String × ℚ)} (h : l ≠ []) : pyMax l ∈ l := by
  cases l with
  | nil => exact absurd rfl h
  | cons x xs =>
    rcases pyMax_go_mem xs x with h' | h'
    · simp [pyMax, h']
    · simp only [pyMax]
      exact List.mem_cons_of_mem _ h'

theorem pyMax_ge {l : List (String × ℚ)} (p : String × ℚ) (hp : p ∈ l) :
    p.2 ≤ (pyMax l).2 := by
  cases l with
  | nil => cases hp
  | cons x xs =>
    obtain ⟨hb, hall⟩ := pyMax_go_ge xs x
    rcases List.mem_cons.mp hp with h | h
    · subst h; simpa [pyMax] using hb
    · simpa [pyMax] using hall p h

/-- On a non-empty result list the ensemble picks `pyMax` of the weighted
score dict and normalizes the confidence by the total when positive. -/
theorem ensemble_result_eq (hierarchy : List (String × List String)) (title : String)
    (results : List MethodResult) (h : results ≠ []) :
    (ensembleClassification hierarchy title results).category = (pyMax (categoryScores results)).1 ∧
    (ensembleClassification hierarchy title results).confidence =
      (if 0 < scoresTotal (categoryScores results)
        then (pyMax (categoryScores results)).2 / scoresTotal (categoryScores results)
        else (pyMax (categoryScores results)).2) := by
  have hne := categoryScores_ne_nil results h
  have h1 : results.isEmpty = false := by
    cases results
    · exact absurd rfl h
    · rfl
  have h2 : (categoryScores results).isEmpty = false := by
    cases hx : categoryScores results
    · exact absurd hx hne
    · rfl
  constructor <;> simp [ensembleClassification, h1, h2]

/-- C1: for every non-empty list of per-method classification results,
`_ensemble_classification` returns a category whose weighted score
(sum over results of confidence × method weight) is maximal among all
categories, and when the total score is positive the returned confidence
is that category's score divided by the sum of all category scores. -/
theorem ensemble_picks_max_weighted_score (hierarchy : List (String × List String))
    (title : String) (results : List MethodResult) (h : results ≠ []) :
    (∀ p ∈ categoryScores results,
        p.2 ≤ lookupScore (categoryScores results)
          (ensembleClassification hierarchy title results).category) ∧
    (0 < scoresTotal (categoryScores results) →
      (ensembleClassification hierarchy title results).confidence
        = lookupScore (categoryScores results)
            (ensembleClassification hierarchy title results).category
          / scoresTotal (categoryScores results)) := by
  obtain ⟨hcat, hconf⟩ := ensemble_result_eq hierarchy title results h
  have hnd := categoryScores_keys_nodup results
  have hmem := pyMax_mem (categoryScores_ne_nil results h)
  have hlk : lookupScore (categoryScores results) (pyMax (categoryScores results)).1
      = (pyMax (categoryScores results)).2 := lookupScore_of_mem hmem hnd
  constructor
  · intro p hp
    rw [hcat, hlk]
    exact pyMax_ge p hp
  · intro hpos
    rw [hconf, hcat, hlk, if_pos hpos]

/-- Witness for C1 at a concrete single rule-engine result. -/
theorem ensemble_picks_max_weighted_score_witness :
    ([({ method := "rule_engine", category := "Tech", confidence := 1/2,
          reasoning := [] } : MethodResult)] ≠ []) ∧
    (0 < scoresTotal (categoryScores
        [{ method := "rule_engine", category := "Tech", confidence := 1/2, reasoning := [] }])) ∧
    (ensembleClassification [] ""
        [{ method := "rule_engine", category := "Tech", confidence := 1/2, reasoning := [] }]).confidence
      = lookupScore (categoryScores
            [{ method := "rule_engine", category := "Tech", confidence := 1/2, reasoning := [] }])
          (ensembleClassification [] ""
            [{ method := "rule_engine", category := "Tech", confidence := 1/2, reasoning := [] }]).category
        / scoresTotal (categoryScores
            [{ method := "rule_engine", category := "Tech", confidence := 1/2, reasoning := [] }]) := by
  refine ⟨by simp, by norm_num [categoryScores, addScore, scoresTotal, methodWeight], ?_⟩
  exact (ensemble_picks_max_weighted_score [] "" _ (by simp)).2
    (by norm_num [categoryScores, addScore, scoresTotal, methodWeight])

/-- C7: when the ensemble receives an empty result list (no classification
method produced a result), it returns the default category "未分类" with
confidence 0.0 — a total function, not an exception. -/
theorem ensemble_empty_returns_fallback (hierarchy : List (String × List String))
    (title : String) :
    ensembleClassification hierarchy title [] =
      { category := "未分类", confidence := 0, subcategory := none,
        reasoning := ["没有找到合适的分类方法"], alternatives := [], method := "fallback" } := rfl

/-! ## Rule engine (`rule_engine.py`) -/

/-- A compiled-rule match (`RuleMatch` dataclass): the matched category, the
rule's effective weight (`rule weight × category weight`, stored as the
match confidence), and the match metadata.  The regex matching of
`_find_matches` is a library boundary: claims quantify over the match
list it produces. -/
structure RuleMatchM where
  ruleId : String
  category : String
  weight : ℚ
  matchedText : String
  ruleType : String
deriving Repr, DecidableEq

/-- `RuleEngine._calculate_scores`: sum the match confidences per category. -/
def ruleScores (ms : List RuleMatchM) : List (String × ℚ) :=
  ms.foldl (fun acc m => addScore acc m.category m.weight) []

/-- `RuleEngine._generate_reasoning` (the quoting of the matched text inside
the message is elided). -/
def ruleReasoning (ms : List RuleMatchM) (best : String) : List String :=
  (ms.filter (fun m => m.category == best)).map
    (fun m => "规则匹配: " ++ m.ruleType ++ " 包含 " ++ m.matchedText ++ " -> " ++ m.category)

/-- `RuleEngine.classify` on a given match list: pick the max-score category
and normalize the confidence by the total score when positive.
(`alternatives` and `facets` of the returned dict are ignored by the
ensemble and not modelled.) -/
def ruleClassify (ms : List RuleMatchM) : Option MethodResult :=
  if ms.isEmpty then none
  else
    let scores := ruleScores ms
    if scores.isEmpty then none
    else
      let best := pyMax scores
      let total := scoresTotal scores
      let conf := if 0 < total then best.2 / total else best.2
      some { method := "rule_engine", category := best.1, confidence := conf,
             reasoning := ruleReasoning ms best.1 }

/-! ## Semantic analyzer (`placeholder_modules.py`, `SemanticAnalyzer`) -/

/-- Python `max(d.values())` (on a non-empty dict; 0 as junk default). -/
def valuesMax (l : List (String × ℚ)) : ℚ :=
  match l.map (·.2) with
  | [] => 0
  | v :: vs => vs.foldl max v

/-- `_combine_semantic_scores`: 40/50/10-weighted merge of the
domain/title/path score dicts over the union of their categories, then
normalization by the maximum value when positive.  `cats` is the
hash-randomized enumeration order in which this run's `for category in
all_categories` loop visits the union. -/
def semanticCombine (cats : List String) (domainS titleS pathS : List (String × ℚ)) :
    List (String × ℚ) :=
  let combined := cats.map (fun c =>
    (c, lookupScore domainS c * (4/10) + lookupScore titleS c * (5/10)
        + lookupScore pathS c * (1/10)))
  if combined.isEmpty then combined
  else
    let maxScore := valuesMax combined
    if 0 < maxScore then combined.map (fun p => (p.1, p.2 / maxScore)) else combined

/-- `SemanticAnalyzer.classify` given the three raw semantic score dicts
(the keyword/regex machinery computing them is a boundary; every
contribution made by `_analyze_domain_semantics`,
`_analyze_title_semantics` and `_analyze_path_semantics` is nonnegative). -/
def semanticClassify (cats : List String) (domainS titleS pathS : List (String × ℚ)) :
    Option MethodResult :=
  let combined := semanticCombine cats domainS titleS pathS
  if combined.isEmpty then none
  else
    let best := pyMax combined
    let conf := best.2
    if conf < 3/10 then none
    else some { method := "semantic_analyzer", category := best.1, confidence := conf,
                reasoning := ["语义分析: " ++ best.1] }

/-! ## User profiler (`placeholder_modules.py`, `UserProfiler`) -/

/-- The user-preference profile (`user_profile.json`), numbers as `ℚ`. -/
structure UserPrefs where
  categoryPreferences : List (String × ℚ)
  domainPreferences : List (String × List (String × ℚ))
  keywordPreferences : List (String × List (String × ℚ))
  timePatterns : List (String × List (String × ℚ))
  confidenceAdjustments : List (String × ℚ)
deriving Repr, DecidableEq

/-- Nested-dict lookup (`prefs.get(section, {})[key]`). -/
def lookupDict (l : List (String × List (String × ℚ))) (k : String) :
    Option (List (String × ℚ)) :=
  (l.find? (fun p => p.1 == k)).map (·.2)

/-- `_calculate_category_scores`. -/
def profilerBaseScores (prefs : UserPrefs) : List (String × ℚ) :=
  let total := scoresTotal prefs.categoryPreferences
  if 0 < total then prefs.categoryPreferences.map (fun p => (p.1, p.2 / total)) else []

/-- `_get_domain_adjustments`. -/
def profilerDomainAdjustments (prefs : UserPrefs) (domain : String) : List (String × ℚ) :=
  match lookupDict prefs.domainPreferences domain with
  | none => []
  | some dd =>
    let total := scoresTotal dd
    if 0 < total then dd.map (fun p => (p.1, p.2 / total * (3/10))) else []

/-- `_extract_words`: maximal runs of `[a-zA-Z一-鿿]` of length ≥ 2
in the lowercased text (the regex `{2,}`), then keep words of length > 2. -/
def isWordChar (c : Char) : Bool :=
  (('a' ≤ c && c ≤ 'z') || ('A' ≤ c && c ≤ 'Z'))
    || (0x4e00 ≤ c.val && c.val ≤ 0x9fff)

def wordRunsGo : List Char → List Char → List (List Char)
  | [], acc => if acc.isEmpty then [] else [acc.reverse]
  | c :: rest, acc =>
    if isWordChar c then wordRunsGo rest (c :: acc)
    else if acc.isEmpty then wordRunsGo rest [] else acc.reverse :: wordRunsGo rest []

def extractWords (text : String) : List String :=
  let words := ((wordRunsGo (pyLower text.data) []).filter (fun r => 2 ≤ r.length)).map
    (fun r => String.mk r)
  words.filter (fun w => 2 < w.length)

/-- `_get_keyword_adjustments`. -/
def profilerKeywordAdjustments (prefs : UserPrefs) (title : String) : List (String × ℚ) :=
  if title = "" then []
  else
    (extractWords title).foldl (fun adj w =>
      match lookupDict prefs.keywordPreferences w with
      | none => adj
      | some kd =>
        let total := scoresTotal kd
        if 0 < total then
          kd.foldl (fun adj p => addScore adj p.1 (p.2 / total * (2/10))) adj
        else adj) []

/-- `_get_time_slot`. -/
def timeSlot (hour : ℕ) : String :=
  if 6 ≤ hour ∧ hour < 12 then "morning"
  else if 12 ≤ hour ∧ hour < 18 then "afternoon"
  else if 18 ≤ hour ∧ hour < 24 then "evening"
  else "night"

/-- `_get_time_adjustments`: reads the wall-clock hour
(`datetime.now().hour`), passed here explicitly. -/
def profilerTimeAdjustments (prefs : UserPrefs) (hour : ℕ) : List (String × ℚ) :=
  match lookupDict prefs.timePatterns (timeSlot hour) with
  | none => []
  | some sd =>
    let total := scoresTotal sd
    if 0 < total then sd.map (fun p => (p.1, p.2 / total * (1/10))) else []

/-- `_combine_scores`: `defaultdict(float)` sum over the four dicts. -/
def profilerCombine (base dom kw tm : List (String × ℚ)) : List (String × ℚ) :=
  (base ++ dom ++ kw ++ tm).foldl (fun acc p => addScore acc p.1 p.2) []

/-- `_apply_confidence_adjustments`: optional multiplicative adjustment,
then clamp to [0, 1] (`min(max(confidence, 0.0), 1.0)`). -/
def applyConfidenceAdjustments (prefs : UserPrefs) (category : String) (conf : ℚ) : ℚ :=
  let c := if hasKey prefs.confidenceAdjustments category
           then conf * (1 + lookupScore prefs.confidenceAdjustments category)
           else conf
  min (max c 0) 1

/-- `UserProfiler.classify` (the URL is read but unused by the scoring). -/
def userProfilerClassify (prefs : UserPrefs) (domain title : String) (hour : ℕ) :
    Option MethodResult :=
  let finalScores := profilerCombine (profilerBaseScores prefs)
      (profilerDomainAdjustments prefs domain)
      (profilerKeywordAdjustments prefs title)
      (profilerTimeAdjustments prefs hour)
  if finalScores.isEmpty then none
  else
    let best := pyMax finalScores
    let conf := applyConfidenceAdjustments prefs best.1 best.2
    if conf < 1/5 then none
    else some { method := "user_profiler", category := best.1, confidence := conf,
                reasoning := ["用户画像分析: " ++ best.1] }

/-! ## LLM classifier result shape (`llm_classifier.py`) -/

/-- The tail of `LLMClassifier.classify` mapping a parsed LLM JSON response
(category already mapped, raw confidence) to the standard result dict:
the confidence is clamped by `max(0.0, min(1.0, confidence))`. -/
def llmResult (category : String) (rawConf : ℚ) : MethodResult :=
  { method := "llm", category := category, confidence := max 0 (min 1 rawConf),
    reasoning := [] }

/-! ## `AIBookmarkClassifier.classify` assembled -/

/-- `AIBookmarkClassifier.classify` with the per-method stages assembled in
source order (rule engine, ML, semantic analysis, user profiling, LLM;
each appended only when it produced a result).  Regex/keyword matching,
the ML model inference and the LLM network call are library boundaries:
the rule-match list, the three semantic score dicts, the optional ML
result and the optional raw LLM response are inputs.  `hour` is the
wall-clock hour read by `UserProfiler._get_time_adjustments`, and `cats`
is the hash-randomized enumeration order of the semantic analyzer's
category set for this run — both are per-run inputs the program reads
from its environment, not from the config or the bookmark. -/
def classifyModel (hierarchy : List (String × List String))
    (ruleMatches : List RuleMatchM) (ml : Option MethodResult)
    (useSemantic : Bool) (cats : List String) (domainS titleS pathS : List (String × ℚ))
    (useUser : Bool) (prefs : UserPrefs)
    (llm : Option (String × ℚ))
    (domain title : String) (hour : ℕ) : ClassificationResult :=
  let results :=
    (ruleClassify ruleMatches).toList
    ++ ml.toList
    ++ (if useSemantic then (semanticClassify cats domainS titleS pathS).toList else [])
    ++ (if useUser then (userProfilerClassify prefs domain title hour).toList else [])
    ++ (llm.map (fun p => llmResult p.1 p.2)).toList
  ensembleClassification hierarchy title results

/-! ### Confidence-range lemmas -/

/-- All values of a score dict are nonnegative. -/
def AllNonneg (l : List (String × ℚ)) : Prop := ∀ p ∈ l, 0 ≤ p.2

theorem methodWeight_pos (m : String) : 0 < methodWeight m := by
  unfold methodWeight
  split_ifs <;> norm_num

theorem addScore_nonneg {l : List (String × ℚ)} {c : String} {v : ℚ}
    (hl : AllNonneg l) (hv : 0 ≤ v) : AllNonneg (addScore l c v) := by
  induction l with
  | nil =>
    intro p hp
    simp only [addScore, List.mem_singleton] at hp
    subst hp; exact hv
  | cons q rest ih =>
    obtain ⟨k, s⟩ := q
    intro p hp
    by_cases hk : k = c
    · simp only [addScore, if_pos hk] at hp
      rcases List.mem_cons.mp hp with h | h
      · subst h
        exact add_nonneg (hl (k, s) (List.mem_cons_self _ _)) hv
      · exact hl p (List.mem_cons_of_mem _ h)
    · simp only [addScore, if_neg hk] at hp
      rcases List.mem_cons.mp hp with h | h
      · subst h; exact hl (k, s) (List.mem_cons_self _ _)
      · exact ih (fun q hq => hl q (List.mem_cons_of_mem _ hq)) p h

/-- Generic accumulation of (category, value) pairs into a score dict;
`categoryScores`, `_calculate_scores` and `_combine_scores` are all of
this shape. -/
def accumScores (ps : List (String × ℚ)) : List (String × ℚ) :=
  ps.foldl (fun acc p => addScore acc p.1 p.2) []

theorem accumScores_go_ne_nil (ps : List (String × ℚ)) :
    ∀ acc : List (String × ℚ), acc ≠ [] →
      ps.foldl (fun acc p => addScore acc p.1 p.2) acc ≠ [] := by
  induction ps with
  | nil => intro acc h; simpa using h
  | cons p rest ih =>
    intro acc _
    simpa using ih _ (addScore_ne_nil acc p.1 p.2)

theorem accumScores_ne_nil {ps : List (String × ℚ)} (h : ps ≠ []) :
    accumScores ps ≠ [] := by
  cases ps with
  | nil => exact absurd rfl h
  | cons p rest =>
    unfold accumScores
    simpa using accumScores_go_ne_nil rest _ (addScore_ne_nil [] p.1 p.2)

theorem accumScores_nonneg {ps : List (String × ℚ)} (h : ∀ p ∈ ps, 0 ≤ p.2) :
    AllNonneg (accumScores ps) := by
  unfold accumScores
  have : ∀ (qs : List (String × ℚ)) (acc : List (String × ℚ)),
      (∀ p ∈ qs, 0 ≤ p.2) → AllNonneg acc →
      AllNonneg (qs.foldl (fun acc p => addScore acc p.1 p.2) acc) := by
    intro qs
    induction qs with
    | nil => intro acc _ hacc; simpa using hacc
    | cons q rest ih =>
      intro acc hq hacc
      exact ih _ (fun p hp => hq p (List.mem_cons_of_mem _ hp))
        (addScore_nonneg hacc (hq q (List.mem_cons_self _ _)))
  exact this ps [] h (by intro p hp; cases hp)

theorem ruleScores_eq (ms : List RuleMatchM) :
    ruleScores ms = accumScores (ms.map fun m => (m.category, m.weight)) := by
  unfold ruleScores accumScores
  rw [List.foldl_map]

theorem categoryScores_nonneg {results : List MethodResult}
    (hr : ∀ r ∈ results, 0 ≤ r.confidence) : AllNonneg (categoryScores results) := by
  have : categoryScores results
      = accumScores (results.map fun r => (r.category, r.confidence * methodWeight r.method)) := by
    unfold categoryScores accumScores
    rw [List.foldl_map]
  rw [this]
  apply accumScores_nonneg
  intro p hp
  obtain ⟨r, hrm, rfl⟩ := List.mem_map.mp hp
  exact mul_nonneg (hr r hrm) (le_of_lt (methodWeight_pos r.method))

theorem scoresTotal_nonneg {l : List (String × ℚ)} (hl : AllNonneg l) :
    0 ≤ scoresTotal l := by
  unfold scoresTotal
  apply List.sum_nonneg
  intro x hx
  obtain ⟨q, hq, rfl⟩ := List.mem_map.mp hx
  exact hl q hq

theorem mem_le_scoresTotal {l : List (String × ℚ)} (hl : AllNonneg l)
    {p : String × ℚ} (hp : p ∈ l) : p.2 ≤ scoresTotal l := by
  unfold scoresTotal
  refine List.single_le_sum ?_ _ (List.mem_map_of_mem _ hp)
  intro x hx
  obtain ⟨q, hq, rfl⟩ := List.mem_map.mp hx
  exact hl q hq

/-- The `best / total when total positive` confidence is in [0, 1] whenever
all scores are nonnegative (the shape shared by `RuleEngine.classify` and
`_ensemble_classification`). -/
theorem normalizedBest_range {scores : List (String × ℚ)}
    (hnn : AllNonneg scores) (hne : scores ≠ []) :
    0 ≤ (if 0 < scoresTotal scores then (pyMax scores).2 / scoresTotal scores
          else (pyMax scores).2) ∧
    (if 0 < scoresTotal scores then (pyMax scores).2 / scoresTotal scores
          else (pyMax scores).2) ≤ 1 := by
  have hmem := pyMax_mem hne
  have hb0 : 0 ≤ (pyMax scores).2 := hnn _ hmem
  have hbt : (pyMax scores).2 ≤ scoresTotal scores := mem_le_scoresTotal hnn hmem
  by_cases hpos : 0 < scoresTotal scores
  · simp only [if_pos hpos]
    exact ⟨div_nonneg hb0 (le_of_lt hpos), (div_le_one hpos).mpr hbt⟩
  · simp only [if_neg hpos]
    have ht0 : scoresTotal scores = 0 :=
      le_antisymm (not_lt.mp hpos) (scoresTotal_nonneg hnn)
    refine ⟨hb0, ?_⟩
    calc (pyMax scores).2 ≤ scoresTotal scores := hbt
      _ = 0 := ht0
      _ ≤ 1 := by norm_num

/-- The ensemble confidence is in [0, 1] whenever every incoming result has
nonnegative confidence. -/
theorem ensemble_confidence_range (hierarchy : List (String × List String))
    (title : String) (results : List MethodResult)
    (hr : ∀ r ∈ results, 0 ≤ r.confidence) :
    0 ≤ (ensembleClassification hierarchy title results).confidence ∧
    (ensembleClassification hierarchy title results).confidence ≤ 1 := by
  by_cases hne : results = []
  · subst hne
    rw [ensemble_empty_returns_fallback]
    norm_num
  · obtain ⟨_, hconf⟩ := ensemble_result_eq hierarchy title results hne
    rw [hconf]
    exact normalizedBest_range (categoryScores_nonneg hr) (categoryScores_ne_nil results hne)

/-- `RuleEngine.classify` returns a confidence in [0, 1] when all compiled
match weights are nonnegative (the config schema and
`ConfigManager._custom_validation` both reject negative rule weights). -/
theorem ruleClassify_confidence_range (ms : List RuleMatchM)
    (hw : ∀ m ∈ ms, 0 ≤ m.weight) {r : MethodResult}
    (hr : ruleClassify ms = some r) : 0 ≤ r.confidence ∧ r.confidence ≤ 1 := by
  unfold ruleClassify at hr
  by_cases h1 : ms.isEmpty
  · rw [if_pos h1] at hr; cases hr
  · rw [if_neg h1] at hr
    have hms : ms ≠ [] := by
      cases ms
      · exact absurd rfl h1
      · simp
    have hsne : ruleScores ms ≠ [] := by
      rw [ruleScores_eq]
      exact accumScores_ne_nil (by simpa using hms)
    have hnn : AllNonneg (ruleScores ms) := by
      rw [ruleScores_eq]
      apply accumScores_nonneg
      intro p hp
      obtain ⟨m, hm, rfl⟩ := List.mem_map.mp hp
      exact hw m hm
    have h2 : (ruleScores ms).isEmpty = false := by
      cases hx : ruleScores ms
      · exact absurd hx hsne
      · rfl
    simp only [h2, Bool.false_eq_true, if_false, Option.some.injEq] at hr
    subst hr
    exact normalizedBest_range hnn hsne

theorem valuesMax_ge {l : List (String × ℚ)} {p : String × ℚ} (hp : p ∈ l) :
    p.2 ≤ valuesMax l := by
  have go : ∀ (vs : List ℚ) (b : ℚ), b ≤ vs.foldl max b ∧ ∀ v ∈ vs, v ≤ vs.foldl max b := by
    intro vs
    induction vs with
    | nil => intro b; simp
    | cons v rest ih =>
      intro b
      obtain ⟨h1, h2⟩ := ih (max b v)
      refine ⟨le_trans (le_max_left b v) h1, ?_⟩
      intro w hw
      rcases List.mem_cons.mp hw with h | h
      · subst h
        exact le_trans (le_max_right b w) h1
      · exact h2 w h
  unfold valuesMax
  cases hl : l.map (·.2) with
  | nil =>
    exact absurd (List.mem_map_of_mem (·.2) hp) (by rw [hl]; exact List.not_mem_nil _)
  | cons v vs =>
    have hmem : p.2 ∈ l.map (·.2) := List.mem_map_of_mem _ hp
    rw [hl] at hmem
    rcases List.mem_cons.mp hmem with h | h
    · rw [h]; exact (go vs v).1
    · exact (go vs v).2 _ h

theorem lookupScore_nonneg {l : List (String × ℚ)} (hl : AllNonneg l) (k : String) :
    0 ≤ lookupScore l k := by
  unfold lookupScore
  cases hf : l.find? (fun p => p.1 == k) with
  | none => simp
  | some p =>
    simp only
    exact hl p (List.mem_of_find?_eq_some hf)

/-- Values of a score dict after the normalize-by-max step lie in [0, 1]
when the raw values are nonnegative. -/
theorem normalizeByMax_values {l : List (String × ℚ)} (hraw : ∀ x ∈ l, 0 ≤ x.2)
    {q : String × ℚ}
    (hq : q ∈ (if l.isEmpty then l
        else if 0 < valuesMax l then l.map (fun p => (p.1, p.2 / valuesMax l)) else l)) :
    0 ≤ q.2 ∧ q.2 ≤ 1 := by
  by_cases he : l.isEmpty
  · rw [if_pos he] at hq
    cases l with
    | nil => cases hq
    | cons x xs => cases he
  · rw [if_neg he] at hq
    by_cases hm : 0 < valuesMax l
    · rw [if_pos hm] at hq
      obtain ⟨x, hx, rfl⟩ := List.mem_map.mp hq
      constructor
      · exact div_nonneg (hraw x hx) (le_of_lt hm)
      · exact (div_le_one hm).mpr (valuesMax_ge hx)
    · rw [if_neg hm] at hq
      refine ⟨hraw q hq, ?_⟩
      calc q.2 ≤ valuesMax l := valuesMax_ge hq
        _ ≤ 0 := not_lt.mp hm
        _ ≤ 1 := by norm_num

/-- `SemanticAnalyzer.classify` returns a confidence in [0, 1] when the raw
domain/title/path score dicts are nonnegative (every contribution the
analyzers make is nonnegative). -/
theorem semanticClassify_confidence_range (cats : List String)
    (domainS titleS pathS : List (String × ℚ))
    (hd : AllNonneg domainS) (ht : AllNonneg titleS) (hp : AllNonneg pathS)
    {r : MethodResult} (hr : semanticClassify cats domainS titleS pathS = some r) :
    0 ≤ r.confidence ∧ r.confidence ≤ 1 := by
  have hraw : ∀ x ∈ cats.map
      (fun c => (c, lookupScore domainS c * (4/10) + lookupScore titleS c * (5/10)
          + lookupScore pathS c * (1/10))), 0 ≤ x.2 := by
    intro x hx
    obtain ⟨c, _, rfl⟩ := List.mem_map.mp hx
    have h1 := lookupScore_nonneg hd c
    have h2 := lookupScore_nonneg ht c
    have h3 := lookupScore_nonneg hp c
    positivity
  have hcomb : ∀ q ∈ semanticCombine cats domainS titleS pathS, 0 ≤ q.2 ∧ q.2 ≤ 1 := by
    intro q hq
    exact normalizeByMax_values hraw hq
  unfold semanticClassify at hr
  by_cases he : (semanticCombine cats domainS titleS pathS).isEmpty
  · rw [if_pos he] at hr; cases hr
  · rw [if_neg he] at hr
    by_cases hth : (pyMax (semanticCombine cats domainS titleS pathS)).2 < 3/10
    · rw [if_pos hth] at hr; cases hr
    · rw [if_neg hth] at hr
      simp only [Option.some.injEq] at hr
      subst hr
      have hne : semanticCombine cats domainS titleS pathS ≠ [] := by
        intro hc
        rw [hc] at he
        exact he rfl
      exact hcomb _ (pyMax_mem hne)

/-- `UserProfiler.classify` always clamps its confidence into [0, 1]. -/
theorem userProfilerClassify_confidence_range (prefs : UserPrefs)
    (domain title : String) (hour : ℕ) {r : MethodResult}
    (hr : userProfilerClassify prefs domain title hour = some r) :
    0 ≤ r.confidence ∧ r.confidence ≤ 1 := by
  unfold userProfilerClassify at hr
  set fs := profilerCombine (profilerBaseScores prefs)
      (profilerDomainAdjustments prefs domain)
      (profilerKeywordAdjustments prefs title)
      (profilerTimeAdjustments prefs hour) with hfs
  by_cases he : fs.isEmpty
  · rw [if_pos he] at hr; cases hr
  · rw [if_neg he] at hr
    by_cases hth : applyConfidenceAdjustments prefs (pyMax fs).1 (pyMax fs).2 < 1/5
    · rw [if_pos hth] at hr; cases hr
    · rw [if_neg hth] at hr
      simp only [Option.some.injEq] at hr
      subst hr
      unfold applyConfidenceAdjustments
      constructor
      · exact le_min (le_max_right _ _) (by norm_num)
      · exact min_le_right _ _

/-- `LLMClassifier.classify` clamps the LLM-reported confidence into [0, 1]. -/
theorem llmResult_confidence_range (category : String) (rawConf : ℚ) :
    0 ≤ (llmResult category rawConf).confidence ∧
    (llmResult category rawConf).confidence ≤ 1 := by
  unfold llmResult
  exact ⟨le_max_left _ _, max_le (by norm_num) (min_le_left _ _)⟩

/-- C2: for every URL and title — that is, for every outcome of the
rule-match list, semantic score dicts, user profile, optional ML result
and optional LLM response that the pipeline derives from them — the
classification result returned by `AIBookmarkClassifier.classify` has a
confidence in [0, 1], for every wall-clock hour and every enumeration
order of the semantic category set.  Hypotheses: rule weights are
nonnegative (the
config schema sets `minimum: 0` and `ConfigManager._custom_validation`
rejects negative weights), the raw semantic scores are nonnegative (every
contribution in `SemanticAnalyzer` is), and an ML result's probability is
nonnegative (`np.max` of a `predict_proba` row). -/
theorem classify_confidence_in_unit_interval
    (hierarchy : List (String × List String))
    (ruleMatches : List RuleMatchM) (ml : Option MethodResult)
    (useSemantic : Bool) (cats : List String)
    (domainS titleS pathS : List (String × ℚ))
    (useUser : Bool) (prefs : UserPrefs) (llm : Option (String × ℚ))
    (domain title : String) (hour : ℕ)
    (hw : ∀ m ∈ ruleMatches, 0 ≤ m.weight)
    (hd : ∀ p ∈ domainS, 0 ≤ p.2) (ht : ∀ p ∈ titleS, 0 ≤ p.2)
    (hpp : ∀ p ∈ pathS, 0 ≤ p.2)
    (hml : ∀ r ∈ ml, 0 ≤ r.confidence) :
    0 ≤ (classifyModel hierarchy ruleMatches ml useSemantic cats domainS titleS pathS
          useUser prefs llm domain title hour).confidence ∧
    (classifyModel hierarchy ruleMatches ml useSemantic cats domainS titleS pathS
          useUser prefs llm domain title hour).confidence ≤ 1 := by
  unfold classifyModel
  apply ensemble_confidence_range
  intro r hr
  simp only [List.mem_append] at hr
  rcases hr with ((((h | h) | h) | h) | h)
  · rw [Option.mem_toList] at h
    exact (ruleClassify_confidence_range ruleMatches hw h).1
  · rw [Option.mem_toList] at h
    exact hml r h
  · cases useSemantic with
    | false => simp at h
    | true =>
      rw [if_pos rfl, Option.mem_toList] at h
      exact (semanticClassify_confidence_range cats domainS titleS pathS hd ht hpp h).1
  · cases useUser with
    | false => simp at h
    | true =>
      rw [if_pos rfl, Option.mem_toList] at h
      exact (userProfilerClassify_confidence_range prefs domain title hour h).1
  · cases llm with
    | none => simp at h
    | some p =>
      have h' : r = llmResult p.1 p.2 := List.mem_singleton.mp h
      rw [h']
      exact (llmResult_confidence_range p.1 p.2).1

/-- Witness for C2 at a concrete input (nothing matches; fallback result). -/
theorem classify_confidence_in_unit_interval_witness :
    0 ≤ (classifyModel [] [] none true [] [] [] []
          true ⟨[], [], [], [], []⟩ none "" "" 0).confidence ∧
    (classifyModel [] [] none true [] [] [] []
          true ⟨[], [], [], [], []⟩ none "" "" 0).confidence ≤ 1 :=
  classify_confidence_in_unit_interval [] [] none true [] [] [] [] true
    ⟨[], [], [], [], []⟩ none "" "" 0
    (by intro m hm; cases hm) (by intro p hp; cases hp)
    (by intro p hp; cases hp) (by intro p hp; cases hp)
    (by intro r hrm; cases hrm)

/-! ### C6: determinism of the classification pipeline -/

/-- Parsed LLM response data (the JSON dict `_safe_parse_json` extracts). -/
structure LLMData where
  category : String
  confidence : ℚ
deriving Repr, DecidableEq

/-- The retry loop of `LLMClassifier.classify`:
`for _ in range(max_retries + 1)` — each iteration performs exactly one
HTTP POST to the chat-completions endpoint (modelled by `outcomes i`:
`none` for an HTTP error status, request exception or unparsable JSON —
all caught inside the loop), breaking on the first successful parse.
Arguments: remaining iterations, attempts made so far.  Returns the
parsed data (if any) and the total number of POST attempts. -/
def llmRetryLoop (outcomes : ℕ → Option LLMData) : ℕ → ℕ → Option LLMData × ℕ
  | 0, attempts => (none, attempts)
  | n + 1, attempts =>
    match outcomes attempts with
    | some d => (some d, attempts + 1)
    | none => llmRetryLoop outcomes n (attempts + 1)

/-- `LLMClassifier.classify` from the request loop on: run the loop with
`max_retries + 1` iterations; with no successful attempt the method
records a failure and returns `None` instead of raising. -/
def llmClassifyLoop (outcomes : ℕ → Option LLMData) (maxRetries : ℕ) :
    Option LLMData × ℕ :=
  llmRetryLoop outcomes (maxRetries + 1) 0

theorem llmRetryLoop_spec (outcomes : ℕ → Option LLMData) :
    ∀ (n a : ℕ),
      (llmRetryLoop outcomes n a).2 ≤ a + n ∧
      ((∀ i, outcomes i = none) → (llmRetryLoop outcomes n a).1 = none)
  | 0, a => by simp [llmRetryLoop]
  | n + 1, a => by
    unfold llmRetryLoop
    cases h : outcomes a with
    | some d =>
      simp only [h]
      refine ⟨?_, ?_⟩
      · show a + 1 ≤ a + (n + 1)
        omega
      · intro hall
        rw [hall a] at h
        exact Option.noConfusion h
    | none =>
      simp only [h]
      obtain ⟨h1, h2⟩ := llmRetryLoop_spec outcomes n (a + 1)
      refine ⟨?_, h2⟩
      show (llmRetryLoop outcomes n (a + 1)).2 ≤ a + (n + 1)
      omega

/-- C8: every call of `LLMClassifier.classify` performs at most
`max_retries + 1` HTTP POST attempts (with the config default
`max_retries = 1`, at most 2), and when every attempt fails the method
returns `None` rather than raising. -/
theorem llm_attempts_bounded_and_fail_returns_none
    (outcomes : ℕ → Option LLMData) (maxRetries : ℕ) :
    (llmClassifyLoop outcomes maxRetries).2 ≤ maxRetries + 1 ∧
    ((∀ i, outcomes i = none) → (llmClassifyLoop outcomes maxRetries).1 = none) := by
  unfold llmClassifyLoop
  obtain ⟨h1, h2⟩ := llmRetryLoop_spec outcomes (maxRetries + 1) 0
  exact ⟨by omega, h2⟩

/-- Witness for C8: all attempts fail with the default `max_retries = 1`. -/
theorem llm_attempts_bounded_witness :
    (llmClassifyLoop (fun _ => none) 1).2 ≤ 2 ∧
    (llmClassifyLoop (fun _ => none) 1).1 = none :=
  ⟨(llm_attempts_bounded_and_fail_returns_none (fun _ => none) 1).1,
    (llm_attempts_bounded_and_fail_returns_none (fun _ => none) 1).2 (fun _ => rfl)⟩

/-! ## Emoji cleaner (`emoji_cleaner.py`) and anchor filtering
(`bookmark_processor.py`) -/

/-- Python `str.strip()` whitespace (ASCII whitespace; the titles' spacing
characters in bookmark exports). -/
def pyIsSpace (c : Char) : Bool :=
  c == ' ' || c == '\t' || c == '\n' || c == '\r' || c == '\x0b' || c == '\x0c'

def pyStripLeft : List Char → List Char
  | [] => []
  | c :: rest => if pyIsSpace c then pyStripLeft rest else c :: rest

/-- Python `str.strip()`. -/
def pyStrip (l : List Char) : List Char :=
  pyStripLeft ((pyStripLeft l.reverse).reverse)

def pyStripStr (s : String) : String := String.mk (pyStrip s.data)

/-- `DEFAULT_PREFIX_EMOJIS` of `emoji_cleaner.py`. -/
def indicatorEmojis : List Char := ['🟢', '🟡', '🟠', '🔴', '🔥', '📌', '⭐', '❓']

/-- After a leading indicator emoji, the regex `(?:[indicator]\s*)+`
greedily consumes any further mix of whitespace and indicator emojis. -/
def dropIndicatorRun : List Char → List Char
  | [] => []
  | c :: rest =>
    if pyIsSpace c || indicatorEmojis.contains c then dropIndicatorRun rest
    else c :: rest

/-- `clean_title` of `emoji_cleaner.py` (no extra emojis): remove the
leading `^(?:[indicator]\s*)+` match, then strip both ends; empty input
stays empty. -/
def cleanEmojiTitle (l : List Char) : List Char :=
  match l with
  | [] => []
  | c :: rest =>
    if indicatorEmojis.contains c then pyStrip (dropIndicatorRun rest)
    else pyStrip (c :: rest)

def cleanEmojiTitleStr (s : String) : String := String.mk (cleanEmojiTitle s.data)

/-- `invalid_prefixes` of `BookmarkProcessor._is_valid_url`. -/
def invalidSchemes : List String :=
  ["javascript:", "data:", "chrome:", "about:", "file:", "mailto:"]

/-- `BookmarkProcessor._is_valid_url`. -/
def isValidUrl (url : String) : Bool :=
  if url = "" then false
  else if invalidSchemes.any (fun p => listStartsWith (pyLower url.data) p.data) then false
  else listStartsWith url.data "http://".data || listStartsWith url.data "https://".data

/-- The anchor-keeping logic of `_load_bookmarks_from_file`: strip the
href, strip and emoji-clean the anchor text, and keep the bookmark only
when the URL and cleaned title are non-empty and the URL is valid. -/
def loadAnchor (href text : String) : Option (String × String) :=
  let url := pyStripStr href
  let title := String.mk (cleanEmojiTitle (pyStrip text.data))
  if (url != "") && (title != "") && isValidUrl url then some (url, title) else none

/-- C9: an anchor is kept as a bookmark only if its (stripped) href starts
with `http://` or `https://` and both the URL and the cleaned title are
non-empty; in particular its lowercased URL starts with none of
`javascript:`, `data:`, `chrome:`, `about:`, `file:`, `mailto:`, so such
anchors are always dropped. -/
theorem loadAnchor_kept_only_valid (href text : String) (p : String × String)
    (h : loadAnchor href text = some p) :
    (listStartsWith (pyStripStr href).data "http://".data
      || listStartsWith (pyStripStr href).data "https://".data) = true ∧
    pyStripStr href ≠ "" ∧
    String.mk (cleanEmojiTitle (pyStrip text.data)) ≠ "" ∧
    ∀ s ∈ invalidSchemes,
      listStartsWith (pyLower (pyStripStr href).data) s.data = false := by
  unfold loadAnchor at h
  by_cases hc : ((pyStripStr href != "") && (String.mk (cleanEmojiTitle (pyStrip text.data)) != "")
      && isValidUrl (pyStripStr href)) = true
  · simp only [hc, if_true] at h
    have h1 : (pyStripStr href != "") = true := by
      rcases Bool.and_eq_true_iff.mp hc with ⟨h12, _⟩
      exact (Bool.and_eq_true_iff.mp h12).1
    have h2 : (String.mk (cleanEmojiTitle (pyStrip text.data)) != "") = true := by
      rcases Bool.and_eq_true_iff.mp hc with ⟨h12, _⟩
      exact (Bool.and_eq_true_iff.mp h12).2
    have h3 : isValidUrl (pyStripStr href) = true :=
      (Bool.and_eq_true_iff.mp hc).2
    have hne : pyStripStr href ≠ "" := by
      intro he
      rw [he] at h1
      simp at h1
    have hnet : String.mk (cleanEmojiTitle (pyStrip text.data)) ≠ "" := by
      intro he
      rw [he] at h2
      simp at h2
    unfold isValidUrl at h3
    rw [if_neg hne] at h3
    by_cases hbad : invalidSchemes.any
        (fun p => listStartsWith (pyLower (pyStripStr href).data) p.data) = true
    · rw [if_pos hbad] at h3
      cases h3
    · rw [if_neg hbad] at h3
      refine ⟨h3, hne, hnet, ?_⟩
      intro s hs
      have hb : invalidSchemes.any
          (fun p => listStartsWith (pyLower (pyStripStr href).data) p.data) = false :=
        Bool.eq_false_iff.mpr hbad
      rw [List.any_eq_false] at hb
      have hbs := hb s hs
      simpa using hbs
  · rw [if_neg (by
      intro habs
      exact hc habs)] at h
    cases h

/-- Witness for C9 at a concrete kept anchor. -/
theorem loadAnchor_kept_only_valid_witness :
    (listStartsWith (pyStripStr "https://example.com").data "http://".data
      || listStartsWith (pyStripStr "https://example.com").data "https://".data) = true ∧
    pyStripStr "https://example.com" ≠ "" ∧
    String.mk (cleanEmojiTitle (pyStrip ("Docs" : String).data)) ≠ "" ∧
    ∀ s ∈ invalidSchemes,
      listStartsWith (pyLower (pyStripStr "https://example.com").data) s.data = false :=
  loadAnchor_kept_only_valid "https://example.com" "Docs"
    ("https://example.com", "Docs") (by decide)

/-! ## Organized-tree sorting (`bookmark_processor.py`,
`_sort_organized_structure`) -/

/-- A classified bookmark as stored in the organized tree's `_items`
(fields beyond these do not affect the sorting). -/
structure BItem where
  url : String
  title : String
  addDate : String
  confidence : ℚ
deriving Repr, DecidableEq

/-- A subcategory node (`{'_items': [...]}`). -/
structure SubNode where
  items : List BItem
deriving Repr, DecidableEq

/-- A category node (`{'_items': [...], '_subcategories': {...}}`). -/
structure CatNode where
  items : List BItem
  subcategories : List (String × SubNode)
deriving Repr, DecidableEq

/-- `items.sort(key=lambda x: x.get('confidence', 0.0), reverse=True)`:
CPython's sort is stable, and with `reverse=True` equal-key items keep
their original order while higher confidence comes first — exactly the
stable `List.mergeSort` under the `b.confidence ≤ a.confidence`
comparator. -/
def sortItems (l : List BItem) : List BItem :=
  l.mergeSort (fun a b => decide (b.confidence ≤ a.confidence))

/-- `_sort_organized_structure` (an empty dict maps to an empty dict). -/
def sortOrganizedStructure (organized : List (String × CatNode)) :
    List (String × CatNode) :=
  organized.map (fun kv =>
    (kv.1,
      { items := sortItems kv.2.items
        subcategories := kv.2.subcategories.map
          (fun sv => (sv.1, { items := sortItems sv.2.items })) }))

theorem sortItems_perm (l : List BItem) : (sortItems l).Perm l :=
  List.mergeSort_perm l _

theorem sortItems_sorted (l : List BItem) :
    List.Pairwise (fun x y : BItem => y.confidence ≤ x.confidence) (sortItems l) := by
  have h := @List.sorted_mergeSort BItem
    (fun a b : BItem => decide (b.confidence ≤ a.confidence))
    (fun a b c hab hbc => by
      simp only [decide_eq_true_eq] at hab hbc ⊢
      exact le_trans hbc hab)
    (fun a b => by
      simp only [Bool.or_eq_true, decide_eq_true_eq]
      exact le_total b.confidence a.confidence)
    l
  refine List.Pairwise.imp ?_ h
  intro a b hab
  simpa using hab

/-- C10: after `_sort_organized_structure`, every category keeps its key,
its `_items` is a permutation of what it was (no item added or removed)
arranged in non-increasing confidence order, and the same holds for every
subcategory's `_items`. -/
theorem sortOrganized_sorts_and_preserves (organized : List (String × CatNode)) :
    List.Forall₂ (fun a b : String × CatNode =>
      b.1 = a.1 ∧
      b.2.items.Perm a.2.items ∧
      List.Pairwise (fun x y : BItem => y.confidence ≤ x.confidence) b.2.items ∧
      List.Forall₂ (fun c d : String × SubNode =>
        d.1 = c.1 ∧ d.2.items.Perm c.2.items ∧
        List.Pairwise (fun x y : BItem => y.confidence ≤ x.confidence) d.2.items)
        a.2.subcategories b.2.subcategories)
      organized (sortOrganizedStructure organized) := by
  unfold sortOrganizedStructure
  rw [List.forall₂_map_right_iff, List.forall₂_same]
  intro kv _
  refine ⟨rfl, sortItems_perm _, sortItems_sorted _, ?_⟩
  rw [List.forall₂_map_right_iff, List.forall₂_same]
  intro sv _
  exact ⟨rfl, sortItems_perm _, sortItems_sorted _⟩

/-! ## Deduplication (`BookmarkDeduplicator` in `placeholder_modules.py`,
fast pass in `BookmarkProcessor.process_files`) -/

instance : Inhabited BItem := ⟨⟨"", "", "", 0⟩⟩

/-- The fast exact-URL pass of `process_files`: keep the first bookmark
seen for each URL (`seen_urls` set). -/
def fastDedupGo : List BItem → List String → List BItem
  | [], _ => []
  | b :: rest, seen =>
    if seen.contains b.url then fastDedupGo rest seen
    else b :: fastDedupGo rest (b.url :: seen)

def fastDedup (bms : List BItem) : List BItem := fastDedupGo bms []

/-- Python `str.split()` with no argument: split on whitespace runs,
no empty pieces. -/
def splitWsGo : List Char → List Char → List (List Char)
  | [], acc => if acc.isEmpty then [] else [acc.reverse]
  | c :: rest, acc =>
    if pyIsSpace c then
      if acc.isEmpty then splitWsGo rest [] else acc.reverse :: splitWsGo rest []
    else splitWsGo rest (c :: acc)

def pySplitWs (l : List Char) : List (List Char) := splitWsGo l []

/-- `add_date.isdigit()` (ASCII digits). -/
def allDigits (l : List Char) : Bool := !l.isEmpty && l.all (fun c => c.isDigit)

/-- `int(add_date)` on a digit string. -/
def digitsToNat (l : List Char) : ℕ := l.foldl (fun n c => n * 10 + (c.toNat - 48)) 0

/-- `tracking_indicators` of `_select_best_bookmark`. -/
def trackingIndicators : List String := ["utm_", "fbclid", "gclid", "ref="]

/-- `score_bookmark` inside `_select_best_bookmark`: title quality (length
and meaningful-word count), URL quality (shortness, https, no tracking
parameters) and recency of `add_date`. -/
def scoreBookmark (b : BItem) : ℚ :=
  let s0 : ℚ := 0
  let s1 := if b.title ≠ "" then
      s0 + min ((b.title.data.length : ℚ) / 100) (3/10)
        + min ((((pySplitWs b.title.data).filter (fun w => 2 < w.length)).length : ℚ) / 10)
            (2/10)
    else s0
  let s2 := if b.url ≠ "" then
      s1 + (if b.url.data.length < 200 then (1:ℚ)/10 else 0)
        + (if listStartsWith b.url.data "https://".data then (1:ℚ)/10 else 0)
        + (if !(trackingIndicators.any (fun t => listContainsSub b.url.data t.data))
            then (2:ℚ)/10 else 0)
    else s1
  if allDigits b.addDate.data && decide (1577836800 < digitsToNat b.addDate.data)
    then s2 + 1/10 else s2

/-- `max(scored_bookmarks, key=lambda x: x[0])`: Python's first maximum. -/
def pyMaxBy (f : BItem → ℚ) : List BItem → BItem
  | [] => default
  | x :: xs => xs.foldl (fun b y => if f b < f y then y else b) x

/-- `_select_best_bookmark` (single-element groups are returned as-is). -/
def selectBestBookmark (group : List BItem) : BItem :=
  match group with
  | [b] => b
  | _ => pyMaxBy scoreBookmark group

/-- `_are_duplicates`: the strategy chain — `_exact_url_match` (exact URL
equality) or one of the four similarity strategies
(`_normalized_url_match`, `_content_similarity_match`,
`_title_similarity_match`, `_domain_path_similarity`), abstracted as
`fuzzy` because they rest on difflib's `SequenceMatcher.ratio()` (a
library boundary); the claim quantifies over their judgement. -/
def areDuplicates (fuzzy : BItem → BItem → Bool) (b1 b2 : BItem) : Bool :=
  (b1.url == b2.url) || fuzzy b1 b2

/-- The index loop of `remove_duplicates`: `idxs` holds the remaining
values of the outer loop variable `i`, `processed` the processed-index
set.  For each unprocessed `i` the inner loop scans `j` over
`enumerate(bookmarks[i+1:], i+1)`, collecting unprocessed duplicates of
`bookmarks[i]`; singleton groups keep their bookmark, larger groups keep
`_select_best_bookmark` and mark the rest as duplicates.  (The
`_original_index` and `duplicate_reason` bookkeeping fields are not
modelled; they do not affect which bookmarks are returned.) -/
def rdGo (dup : BItem → BItem → Bool) (arr : List BItem) :
    List ℕ → List ℕ → List BItem × List BItem
  | [], _ => ([], [])
  | i :: is, processed =>
    if processed.contains i then rdGo dup arr is processed
    else
      let b := arr.getD i default
      let simIdx := (List.range arr.length).filter
          (fun j => decide (i < j) && !processed.contains j && dup b (arr.getD j default))
      let group := b :: simIdx.map (fun j => arr.getD j default)
      let processed' := processed ++ i :: simIdx
      if 1 < group.length then
        let best := selectBestBookmark group
        let rest := rdGo dup arr is processed'
        (best :: rest.1, (group.filter (fun x => x ≠ best)) ++ rest.2)
      else
        let rest := rdGo dup arr is processed'
        (b :: rest.1, rest.2)

/-- `BookmarkDeduplicator.remove_duplicates` over the strategy judgement
`fuzzy` (an empty input yields `([], [])`). -/
def removeDuplicates (fuzzy : BItem → BItem → Bool) (bms : List BItem) :
    List BItem × List BItem :=
  rdGo (areDuplicates fuzzy) bms (List.range bms.length) []

/-! ### C4 lemmas -/

theorem natContains_iff (P : List ℕ) (j : ℕ) : P.contains j = true ↔ j ∈ P := by
  rw [List.contains_iff_exists_mem_beq]
  constructor
  · rintro ⟨a, ha, hbeq⟩
    rw [beq_iff_eq] at hbeq
    exact hbeq ▸ ha
  · intro h
    exact ⟨j, h, beq_self_eq_true j⟩

theorem strContains_iff (s : List String) (u : String) : s.contains u = true ↔ u ∈ s := by
  rw [List.contains_iff_exists_mem_beq]
  constructor
  · rintro ⟨a, ha, hbeq⟩
    rw [beq_iff_eq] at hbeq
    exact hbeq ▸ ha
  · intro h
    exact ⟨u, h, beq_self_eq_true u⟩

theorem fastDedupGo_length (l : List BItem) :
    ∀ seen, (fastDedupGo l seen).length ≤ l.length := by
  induction l with
  | nil => intro seen; simp [fastDedupGo]
  | cons b rest ih =>
    intro seen
    unfold fastDedupGo
    by_cases h : seen.contains b.url
    · rw [if_pos h]
      exact le_trans (ih seen) (Nat.le_succ _)
    · rw [if_neg h]
      simpa using ih (b.url :: seen)

theorem fastDedupGo_sublist (l : List BItem) :
    ∀ seen, (fastDedupGo l seen).Sublist l := by
  induction l with
  | nil => intro seen; simp [fastDedupGo]
  | cons b rest ih =>
    intro seen
    unfold fastDedupGo
    by_cases h : seen.contains b.url
    · rw [if_pos h]
      exact (ih seen).cons b
    · rw [if_neg h]
      exact (ih _).cons₂ b

theorem fastDedupGo_urls_nodup (l : List BItem) :
    ∀ seen, ((fastDedupGo l seen).map (·.url)).Nodup ∧
      ∀ b ∈ fastDedupGo l seen, b.url ∉ seen := by
  induction l with
  | nil => intro seen; simp [fastDedupGo]
  | cons b rest ih =>
    intro seen
    unfold fastDedupGo
    by_cases h : seen.contains b.url
    · rw [if_pos h]
      exact ih seen
    · rw [if_neg h]
      obtain ⟨hnd, hseen⟩ := ih (b.url :: seen)
      constructor
      · rw [List.map_cons, List.nodup_cons]
        refine ⟨?_, hnd⟩
        intro hmem
        obtain ⟨x, hx, hxe⟩ := List.mem_map.mp hmem
        exact hseen x hx (hxe ▸ List.mem_cons_self _ _)
      · intro x hx
        rcases List.mem_cons.mp hx with he | hm
        · subst he
          intro hc
          exact h ((strContains_iff seen x.url).mpr hc)
        · intro hc
          exact hseen x hm (List.mem_cons_of_mem _ hc)

theorem fastDedupGo_mem {b : BItem} :
    ∀ (l : List BItem) (seen : List String), b ∈ l → b.url ∉ seen →
      (∀ x ∈ l, x.url = b.url → x = b) → b ∈ fastDedupGo l seen := by
  intro l
  induction l with
  | nil => intro seen h; cases h
  | cons x rest ih =>
    intro seen hmem hseen huniq
    unfold fastDedupGo
    by_cases hc : seen.contains x.url
    · rw [if_pos hc]
      have hxb : x ≠ b := by
        intro he
        exact hseen (he ▸ (strContains_iff seen x.url).mp hc)
      have hbm : b ∈ rest := by
        rcases List.mem_cons.mp hmem with h | h
        · exact absurd h.symm hxb
        · exact h
      exact ih seen hbm hseen (fun y hy => huniq y (List.mem_cons_of_mem _ hy))
    · rw [if_neg hc]
      by_cases hxb : x = b
      · exact hxb ▸ List.mem_cons_self _ _
      · have hbm : b ∈ rest := by
          rcases List.mem_cons.mp hmem with h | h
          · exact absurd h.symm hxb
          · exact h
        refine List.mem_cons_of_mem _
          (ih (x.url :: seen) hbm ?_ (fun y hy => huniq y (List.mem_cons_of_mem _ hy)))
        intro hin
        rcases List.mem_cons.mp hin with h2 | h2
        · exact hxb (huniq x (List.mem_cons_self _ _) h2.symm)
        · exact hseen h2

theorem rdGo_length (dup : BItem → BItem → Bool) (arr : List BItem) :
    ∀ (idxs processed : List ℕ), (rdGo dup arr idxs processed).1.length ≤ idxs.length := by
  intro idxs
  induction idxs with
  | nil => intro processed; simp [rdGo]
  | cons i is ih =>
    intro processed
    by_cases hc : processed.contains i
    · simp only [rdGo, hc, if_true]
      exact le_trans (ih processed) (Nat.le_succ _)
    · have hc' : processed.contains i = false := Bool.eq_false_iff.mpr hc
      simp only [rdGo, hc', Bool.false_eq_true, if_false]
      split
      · simpa using ih _
      · simpa using ih _

theorem rdGo_keeps_isolated (dup : BItem → BItem → Bool) (arr : List BItem) (i₀ : ℕ)
    (hiso : ∀ j, j < arr.length → j ≠ i₀ →
      dup (arr.getD i₀ default) (arr.getD j default) = false ∧
      dup (arr.getD j default) (arr.getD i₀ default) = false) :
    ∀ (idxs processed : List ℕ), i₀ ∈ idxs → i₀ ∉ processed →
      arr.getD i₀ default ∈ (rdGo dup arr idxs processed).1 := by
  intro idxs
  induction idxs with
  | nil => intro processed h; cases h
  | cons i is ih =>
    intro processed hmem hproc
    by_cases hii : i = i₀
    · subst hii
      have hc : processed.contains i = false := by
        rw [Bool.eq_false_iff]
        intro hx
        exact hproc ((natContains_iff _ _).mp hx)
      have hsim : (List.range arr.length).filter
          (fun j => decide (i < j) && !processed.contains j
            && dup (arr.getD i default) (arr.getD j default)) = [] := by
        rw [List.filter_eq_nil_iff]
        intro j hj
        rw [List.mem_range] at hj
        by_cases hji : j = i
        · subst hji
          simp
        · have hd := (hiso j hj hji).1
          intro hx
          rcases Bool.and_eq_true_iff.mp hx with ⟨-, h3⟩
          rw [hd] at h3
          cases h3
      simp only [rdGo, hc, Bool.false_eq_true, if_false, hsim]
      simp
    · have hmem' : i₀ ∈ is := by
        rcases List.mem_cons.mp hmem with h | h
        · exact absurd h.symm hii
        · exact h
      by_cases hc : processed.contains i = true
      · simp only [rdGo, hc, if_true]
        exact ih processed hmem' hproc
      · have hc' : processed.contains i = false := Bool.eq_false_iff.mpr hc
        have hproc' : i₀ ∉ processed ++ i :: (List.range arr.length).filter
            (fun j => decide (i < j) && !processed.contains j
              && dup (arr.getD i default) (arr.getD j default)) := by
          intro hin
          rcases List.mem_append.mp hin with h | h
          · exact hproc h
          · rcases List.mem_cons.mp h with h2 | h2
            · exact hii h2.symm
            · obtain ⟨hr, hpred⟩ := List.mem_filter.mp h2
              rw [List.mem_range] at hr
              have hlt : i < i₀ := by
                rcases Bool.and_eq_true_iff.mp hpred with ⟨h3, _⟩
                rcases Bool.and_eq_true_iff.mp h3 with ⟨h4, _⟩
                exact of_decide_eq_true h4
              have hdup : dup (arr.getD i default) (arr.getD i₀ default) = true :=
                (Bool.and_eq_true_iff.mp hpred).2
              have := (hiso i (lt_trans hlt hr) hii).2
              rw [hdup] at this
              cases this
        simp only [rdGo, hc', Bool.false_eq_true, if_false]
        split
        · exact List.mem_cons_of_mem _ (ih _ hmem' hproc')
        · exact List.mem_cons_of_mem _ (ih _ hmem' hproc')

/-- C4: deduplication — the fast exact-URL pass followed by
`BookmarkDeduplicator.remove_duplicates` — returns a unique list no
longer than the input, and every bookmark that has no duplicate in the
input (no other bookmark the strategies judge similar to it, in either
direction) appears in the unique list. -/
theorem dedup_shrinks_and_keeps_isolated (fuzzy : BItem → BItem → Bool) (bms : List BItem) :
    (removeDuplicates fuzzy (fastDedup bms)).1.length ≤ bms.length ∧
    ∀ b ∈ bms,
      (∀ b' ∈ bms, b' ≠ b →
        areDuplicates fuzzy b b' = false ∧ areDuplicates fuzzy b' b = false) →
      b ∈ (removeDuplicates fuzzy (fastDedup bms)).1 := by
  constructor
  · unfold removeDuplicates
    calc (rdGo (areDuplicates fuzzy) (fastDedup bms)
            (List.range (fastDedup bms).length) []).1.length
        ≤ (List.range (fastDedup bms).length).length := rdGo_length _ _ _ _
      _ = (fastDedup bms).length := List.length_range _
      _ ≤ bms.length := fastDedupGo_length bms []
  · intro b hb hiso
    have hsame : ∀ x ∈ bms, x.url = b.url → x = b := by
      intro x hx hurl
      by_contra hne
      have hdup := (hiso x hx hne).2
      unfold areDuplicates at hdup
      rw [Bool.or_eq_false_iff] at hdup
      rw [beq_eq_false_iff_ne] at hdup
      exact hdup.1 hurl
    have hbarr : b ∈ fastDedup bms :=
      fastDedupGo_mem bms [] hb (by simp) hsame
    obtain ⟨i₀, hi₀, hbi⟩ := List.mem_iff_getElem.mp hbarr
    have hnd : ((fastDedup bms).map (·.url)).Nodup :=
      (fastDedupGo_urls_nodup bms []).1
    have hgd : (fastDedup bms).getD i₀ default = b := by
      rw [List.getD_eq_getElem _ _ hi₀, hbi]
    have hiso' : ∀ j, j < (fastDedup bms).length → j ≠ i₀ →
        areDuplicates fuzzy ((fastDedup bms).getD i₀ default)
          ((fastDedup bms).getD j default) = false ∧
        areDuplicates fuzzy ((fastDedup bms).getD j default)
          ((fastDedup bms).getD i₀ default) = false := by
      intro j hj hji
      have hj' : (fastDedup bms).getD j default = (fastDedup bms)[j] :=
        List.getD_eq_getElem _ _ hj
      have hmem : (fastDedup bms)[j] ∈ bms :=
        (fastDedupGo_sublist bms []).subset (List.getElem_mem _)
      have hurlne : (fastDedup bms)[j].url ≠ b.url := by
        intro he
        have hjm : j < ((fastDedup bms).map (fun x => x.url)).length := by simpa using hj
        have him : i₀ < ((fastDedup bms).map (fun x => x.url)).length := by
          simpa using hi₀
        have h1 : ((fastDedup bms).map (fun x => x.url))[j]
            = ((fastDedup bms).map (fun x => x.url))[i₀] := by
          simp only [List.getElem_map]
          rw [he, hbi]
        have := (hnd.getElem_inj_iff).mp h1
        exact hji this
      have hne : (fastDedup bms)[j] ≠ b := fun he => hurlne (by rw [he])
      have := hiso ((fastDedup bms)[j]) hmem hne
      rw [hgd, hj']
      exact this
    have := rdGo_keeps_isolated (areDuplicates fuzzy) (fastDedup bms) i₀ hiso'
      (List.range (fastDedup bms).length) [] (List.mem_range.mpr hi₀) (by simp)
    rw [hgd] at this
    exact this

/-- Witness for C4 at a concrete two-bookmark input with no duplicates. -/
theorem dedup_shrinks_and_keeps_isolated_witness :
    (removeDuplicates (fun _ _ => false)
        (fastDedup [⟨"https://a.com", "A", "", 1⟩, ⟨"https://b.com", "B", "", 1⟩])).1.length ≤ 2 ∧
    (⟨"https://a.com", "A", "", 1⟩ : BItem) ∈
      (removeDuplicates (fun _ _ => false)
        (fastDedup [⟨"https://a.com", "A", "", 1⟩, ⟨"https://b.com", "B", "", 1⟩])).1 :=
  ⟨(dedup_shrinks_and_keeps_isolated (fun _ _ => false)
      [⟨"https://a.com", "A", "", 1⟩, ⟨"https://b.com", "B", "", 1⟩]).1,
    (dedup_shrinks_and_keeps_isolated (fun _ _ => false)
      [⟨"https://a.com", "A", "", 1⟩, ⟨"https://b.com", "B", "", 1⟩]).2
      ⟨"https://a.com", "A", "", 1⟩ (by simp)
      (by
        intro b' hb' hne
        rcases List.mem_cons.mp hb' with h | h
        · exact absurd h hne
        · rcases List.mem_cons.mp h with h2 | h2
          · subst h2
            exact ⟨by decide, by decide⟩
          · cases h2)⟩

/-! ## URL normalization (`BookmarkDeduplicator._normalize_url`)

`urllib.parse.urlparse` / `parse_qs` are modelled for the URL shapes the
repository handles: single-byte (ASCII) percent-escapes, `#`-fragments,
`;`-params and the CPython 3.11 scheme rule (first character an ASCII
letter, scheme characters `[a-zA-Z0-9+.-]`).  The inputs here are already
lowercased by `_normalize_url`, so the parser's own scheme lowering is a
no-op. -/

/-- Split a character list at the first occurrence of `sep`. -/
def splitFirstChar (sep : Char) : List Char → Option (List Char × List Char)
  | [] => none
  | c :: rest =>
    if c = sep then some ([], rest)
    else match splitFirstChar sep rest with
      | some (a, b) => some (c :: a, b)
      | none => none

/-- `scheme_chars` of `urllib.parse`. -/
def schemeChar (c : Char) : Bool := c.isAlpha || c.isDigit || c == '+' || c == '-' || c == '.'

def isNetlocEnd (c : Char) : Bool := c == '/' || c == '?' || c == '#'

/-- `_splitnetloc`: the netloc runs until the next `/`, `?` or `#`. -/
def takeUntilNetlocEnd : List Char → List Char × List Char
  | [] => ([], [])
  | c :: rest =>
    if isNetlocEnd c then ([], c :: rest)
    else
      let (a, b) := takeUntilNetlocEnd rest
      (c :: a, b)

/-- `_splitparams`: split `;params` off the last path segment. -/
def splitParamsM (p : List Char) : List Char × List Char :=
  if p.contains '/' then
    let lastSeg := (p.reverse.takeWhile (fun c => !(c == '/'))).reverse
    match splitFirstChar ';' lastSeg with
    | none => (p, [])
    | some (a, b) => (p.take (p.length - lastSeg.length) ++ a, b)
  else
    match splitFirstChar ';' p with
    | none => (p, [])
    | some (a, b) => (a, b)

/-- The components `urlparse` produces. -/
structure ParsedUrl where
  scheme : List Char
  netloc : List Char
  path : List Char
  params : List Char
  query : List Char
  fragment : List Char
deriving Repr, DecidableEq

/-- `urllib.parse.urlparse` (no `allow_fragments=False` callers here). -/
def urlparseM (l : List Char) : ParsedUrl :=
  let (scheme, rest1) :=
    match splitFirstChar ':' l with
    | some (pre, after) =>
      match pre with
      | [] => (([] : List Char), l)
      | c :: _ => if c.isAlpha && pre.all schemeChar then (pre, after) else ([], l)
    | none => ([], l)
  let (netloc, rest2) :=
    if listStartsWith rest1 ['/', '/'] then takeUntilNetlocEnd (rest1.drop 2)
    else ([], rest1)
  let (rest3, fragment) :=
    match splitFirstChar '#' rest2 with
    | some (a, b) => (a, b)
    | none => (rest2, [])
  let (rest4, query) :=
    match splitFirstChar '?' rest3 with
    | some (a, b) => (a, b)
    | none => (rest3, [])
  let (path, params) := splitParamsM rest4
  ⟨scheme, netloc, path, params, query, fragment⟩

def isHexDigitCB (c : Char) : Bool :=
  c.isDigit || ('a' ≤ c && c ≤ 'f') || ('A' ≤ c && c ≤ 'F')

def hexVal (c : Char) : ℕ :=
  if c.isDigit then c.toNat - 48
  else if 'a' ≤ c && c ≤ 'f' then c.toNat - 87
  else c.toNat - 55

/-- `urllib.parse.unquote_plus` restricted to single-byte escapes:
`+` becomes a space, `%xy` with `xy` hex and value < 128 decodes to that
ASCII character; anything else passes through (multi-byte UTF-8 escape
sequences are outside the URLs this repository produces). -/
def unquotePlus : List Char → List Char
  | [] => []
  | '+' :: rest => ' ' :: unquotePlus rest
  | '%' :: a :: b :: rest =>
    if isHexDigitCB a && isHexDigitCB b && decide (hexVal a * 16 + hexVal b < 128) then
      Char.ofNat (hexVal a * 16 + hexVal b) :: unquotePlus rest
    else '%' :: unquotePlus (a :: b :: rest)
  | c :: rest => c :: unquotePlus rest

def splitOnCharGo (sep : Char) : List Char → List Char → List (List Char)
  | [], acc => [acc.reverse]
  | c :: rest, acc =>
    if c = sep then acc.reverse :: splitOnCharGo sep rest []
    else splitOnCharGo sep rest (c :: acc)

/-- Python `str.split(sep)` (keeps empty pieces). -/
def splitOnChar (sep : Char) (l : List Char) : List (List Char) := splitOnCharGo sep l []

/-- `urllib.parse.parse_qsl` with the defaults
(`keep_blank_values=False`, separator `&`): empty chunks, chunks without
`=` and pairs with an empty value are all skipped. -/
def parseQsl (q : List Char) : List (List Char × List Char) :=
  (splitOnChar '&' q).filterMap (fun nv =>
    if nv.isEmpty then none
    else match splitFirstChar '=' nv with
      | none => none
      | some (n, v) => if v.isEmpty then none else some (unquotePlus n, unquotePlus v))

/-- `dict`-grouping of `parse_qs`: values of repeated keys accumulate in
first-occurrence key order. -/
def addQsValue : List (List Char × List (List Char)) → List Char → List Char →
    List (List Char × List (List Char))
  | [], k, v => [(k, [v])]
  | (k', vs) :: rest, k, v =>
    if k' = k then (k', vs ++ [v]) :: rest else (k', vs) :: addQsValue rest k v

/-- `urllib.parse.parse_qs`. -/
def parseQs (q : List Char) : List (List Char × List (List Char)) :=
  (parseQsl q).foldl (fun acc p => addQsValue acc p.1 p.2) []

/-- `tracking_params` of `_normalize_url`. -/
def trackingParams : List (List Char) :=
  ["utm_source", "utm_medium", "utm_campaign", "utm_content", "utm_term",
   "fbclid", "gclid", "msclkid", "_ga", "ref", "source"].map String.data

/-- `'&'.join`. -/
def joinAmp : List (List Char) → List Char
  | [] => []
  | p :: ps => p ++ (ps.flatMap (fun q => '&' :: q))

/-- Key order used by `sorted(filtered_params.items())`: Python compares
the `(key, values)` tuples, and since dict keys are distinct the order is
decided by the lexicographic (code-point) comparison of the keys. -/
def lexLeChars : List Char → List Char → Bool
  | [], _ => true
  | _ :: _, [] => false
  | a :: as, b :: bs => if a = b then lexLeChars as bs else decide (a < b)

def qsKeyLe (a b : List Char × List (List Char)) : Prop := lexLeChars a.1 b.1 = true

instance : DecidableRel qsKeyLe := fun a b => by
  unfold qsKeyLe
  infer_instance

/-- drop leading `'/'` characters (used reversed for `path.rstrip('/')`). -/
def dropSlashesLeft : List Char → List Char
  | [] => []
  | c :: rest => if c = '/' then dropSlashesLeft rest else c :: rest

def rstripSlashes (p : List Char) : List Char := (dropSlashesLeft p.reverse).reverse

/-- `BookmarkDeduplicator._normalize_url`.  The `try/except` fallback
(`url.lower().strip()`) is unreachable here: no modelled step raises. -/
def normalizeUrl (url : List Char) : List Char :=
  if url.isEmpty then []
  else
    let t := pyLower (pyStrip url)
    let p := urlparseM t
    let filtered := (parseQs p.query).filter (fun kv => !(trackingParams.contains kv.1))
    let sortedParams := List.insertionSort qsKeyLe filtered
    let qs := joinAmp (sortedParams.map (fun kv => kv.1 ++ '=' :: joinAmp kv.2))
    let path := rstripSlashes p.path
    let normalized := p.scheme ++ ':' :: '/' :: '/' :: (p.netloc ++ path)
    if qs.isEmpty then normalized else normalized ++ '?' :: qs

def normalizeUrlStr (s : String) : String := String.mk (normalizeUrl s.data)

/-- C3 counterexample: `_normalize_url` is not idempotent.  On
`http://x.com/?a=1&a=2` the multi-valued query is rebuilt as `a=1&2`
(the second value loses its key), and a second normalization drops the
key-less chunk `2`, giving a different string. -/
theorem normalizeUrl_not_idempotent :
    normalizeUrlStr "http://x.com/?a=1&a=2" = "http://x.com?a=1&2" ∧
    normalizeUrlStr (normalizeUrlStr "http://x.com/?a=1&a=2") = "http://x.com?a=1" ∧
    normalizeUrlStr (normalizeUrlStr "http://x.com/?a=1&a=2")
      ≠ normalizeUrlStr "http://x.com/?a=1&a=2" := by
  refine ⟨?_, ?_, ?_⟩ <;> decide

/-! ### C3 amended: idempotence of `_normalize_url` on plain URLs -/

/-- Plain query-component characters: lowercase ASCII letters, digits and
`-`, `_`, `.`, `~` — no percent-escapes, separators or whitespace. -/
def plainChar (c : Char) : Bool :=
  (97 ≤ c.toNat && c.toNat ≤ 122) || (48 ≤ c.toNat && c.toNat ≤ 57)
    || c == '-' || c == '_' || c == '.' || c == '~'

/-- Plain host characters. -/
def hostChar (c : Char) : Bool :=
  (97 ≤ c.toNat && c.toNat ≤ 122) || (48 ≤ c.toNat && c.toNat ≤ 57)
    || c == '-' || c == '.'

/-- Plain path characters. -/
def pathChar (c : Char) : Bool := plainChar c || c == '/'

/-- Lowercase ASCII letter. -/
def lowerAlpha (c : Char) : Bool := 97 ≤ c.toNat && c.toNat ≤ 122

/-- The `k=v1&k2=v2` body that `_normalize_url` rebuilds (single-valued). -/
def queryBody (qs : List (List Char × List Char)) : List Char :=
  joinAmp (qs.map (fun kv => kv.1 ++ '=' :: kv.2))

def renderQuery (qs : List (List Char × List Char)) : List Char :=
  match qs with
  | [] => []
  | _ => '?' :: queryBody qs

/-- A URL assembled from plain components. -/
def renderUrl (scheme host path : List Char) (qs : List (List Char × List Char)) :
    List Char :=
  scheme ++ ':' :: '/' :: '/' :: (host ++ path ++ renderQuery qs)

def pairKeyLe (a b : List Char × List Char) : Prop := lexLeChars a.1 b.1 = true

instance : DecidableRel pairKeyLe := fun a b => by
  unfold pairKeyLe
  infer_instance

/-- The plain-URL class: a lowercase scheme, a plain host, an absolute
plain path (possibly with trailing slashes) and a query of `key=value`
pairs with pairwise-distinct plain keys and non-empty plain values. -/
def PlainUrlParts (scheme host path : List Char)
    (qs : List (List Char × List Char)) : Prop :=
  scheme ≠ [] ∧ (∀ c ∈ scheme, lowerAlpha c = true) ∧
  host ≠ [] ∧ (∀ c ∈ host, hostChar c = true) ∧
  (path = [] ∨ path.head? = some '/') ∧ (∀ c ∈ path, pathChar c = true) ∧
  (qs.map (·.1)).Nodup ∧
  (∀ kv ∈ qs, kv.1 ≠ [] ∧ kv.2 ≠ [] ∧
    (∀ c ∈ kv.1, plainChar c = true) ∧ (∀ c ∈ kv.2, plainChar c = true))

/-! #### Character-class facts -/

theorem plainChar_elim {c : Char} (h : plainChar c = true) :
    (97 ≤ c.toNat ∧ c.toNat ≤ 122) ∨ (48 ≤ c.toNat ∧ c.toNat ≤ 57)
      ∨ c = '-' ∨ c = '_' ∨ c = '.' ∨ c = '~' := by
  unfold plainChar at h
  simp only [Bool.or_eq_true, Bool.and_eq_true, decide_eq_true_eq, beq_iff_eq] at h
  tauto

theorem hostChar_elim {c : Char} (h : hostChar c = true) :
    (97 ≤ c.toNat ∧ c.toNat ≤ 122) ∨ (48 ≤ c.toNat ∧ c.toNat ≤ 57)
      ∨ c = '-' ∨ c = '.' := by
  unfold hostChar at h
  simp only [Bool.or_eq_true, Bool.and_eq_true, decide_eq_true_eq, beq_iff_eq] at h
  tauto

theorem lowerAlpha_elim {c : Char} (h : lowerAlpha c = true) :
    97 ≤ c.toNat ∧ c.toNat ≤ 122 := by
  unfold lowerAlpha at h
  simp only [Bool.and_eq_true, decide_eq_true_eq] at h
  exact h

theorem charLower_eq_self {c : Char} (h : ¬(65 ≤ c.toNat ∧ c.toNat ≤ 90)) :
    charLower c = c := by
  unfold charLower
  rw [if_neg]
  intro hc
  exact h ⟨hc.1, hc.2⟩

theorem not_space_of_ge {c : Char} (h : 33 ≤ c.toNat) : pyIsSpace c = false := by
  cases hx : pyIsSpace c
  · rfl
  · exfalso
    unfold pyIsSpace at hx
    simp only [Bool.or_eq_true, beq_iff_eq] at hx
    rcases hx with ((((h1 | h1) | h1) | h1) | h1) | h1 <;>
      (subst h1; exact absurd h (by decide))

theorem plainChar_clean {c : Char} (h : plainChar c = true) :
    pyIsSpace c = false ∧ charLower c = c := by
  rcases plainChar_elim h with h1 | h1 | h1 | h1 | h1 | h1
  · exact ⟨not_space_of_ge (by omega), charLower_eq_self (by omega)⟩
  · exact ⟨not_space_of_ge (by omega), charLower_eq_self (by omega)⟩
  all_goals (subst h1; exact ⟨by decide, by decide⟩)

theorem hostChar_clean {c : Char} (h : hostChar c = true) :
    pyIsSpace c = false ∧ charLower c = c := by
  rcases hostChar_elim h with h1 | h1 | h1 | h1
  · exact ⟨not_space_of_ge (by omega), charLower_eq_self (by omega)⟩
  · exact ⟨not_space_of_ge (by omega), charLower_eq_self (by omega)⟩
  all_goals (subst h1; exact ⟨by decide, by decide⟩)

theorem pathChar_clean {c : Char} (h : pathChar c = true) :
    pyIsSpace c = false ∧ charLower c = c := by
  unfold pathChar at h
  rcases Bool.or_eq_true_iff.mp h with h1 | h1
  · exact plainChar_clean h1
  · rw [beq_iff_eq] at h1
    subst h1
    exact ⟨by decide, by decide⟩

theorem lowerAlpha_clean {c : Char} (h : lowerAlpha c = true) :
    pyIsSpace c = false ∧ charLower c = c := by
  have h1 := lowerAlpha_elim h
  exact ⟨not_space_of_ge (by omega), charLower_eq_self (by omega)⟩

theorem lowerAlpha_isAlpha {c : Char} (h : lowerAlpha c = true) : c.isAlpha = true := by
  have h1 := lowerAlpha_elim h
  unfold Char.isAlpha Char.isLower
  simp only [Bool.or_eq_true, Bool.and_eq_true, decide_eq_true_eq]
  exact Or.inr ⟨h1.1, h1.2⟩

theorem lowerAlpha_schemeChar {c : Char} (h : lowerAlpha c = true) : schemeChar c = true := by
  unfold schemeChar
  rw [lowerAlpha_isAlpha h]
  rfl

theorem plainChar_ne {c : Char} (h : plainChar c = true) :
    c ≠ '&' ∧ c ≠ '=' ∧ c ≠ '#' ∧ c ≠ '?' ∧ c ≠ ';' ∧ c ≠ '+' ∧ c ≠ '%' ∧ c ≠ '/' ∧ c ≠ ':' := by
  rcases plainChar_elim h with h1 | h1 | h1 | h1 | h1 | h1
  · refine ⟨?_, ?_, ?_, ?_, ?_, ?_, ?_, ?_, ?_⟩ <;>
      (intro he; subst he; exact absurd h1 (by decide))
  · refine ⟨?_, ?_, ?_, ?_, ?_, ?_, ?_, ?_, ?_⟩ <;>
      (intro he; subst he; exact absurd h1 (by decide))
  all_goals (subst h1; exact ⟨by decide, by decide, by decide, by decide, by decide,
    by decide, by decide, by decide, by decide⟩)

theorem hostChar_not_netlocEnd {c : Char} (h : hostChar c = true) :
    isNetlocEnd c = false := by
  rcases hostChar_elim h with h1 | h1 | h1 | h1
  · cases hx : isNetlocEnd c
    · rfl
    · exfalso
      unfold isNetlocEnd at hx
      simp only [Bool.or_eq_true, beq_iff_eq] at hx
      rcases hx with (h2 | h2) | h2 <;> (subst h2; exact absurd h1 (by decide))
  · cases hx : isNetlocEnd c
    · rfl
    · exfalso
      unfold isNetlocEnd at hx
      simp only [Bool.or_eq_true, beq_iff_eq] at hx
      rcases hx with (h2 | h2) | h2 <;> (subst h2; exact absurd h1 (by decide))
  all_goals (subst h1; decide)

theorem lowerAlpha_ne_colon {c : Char} (h : lowerAlpha c = true) : c ≠ ':' := by
  have h1 := lowerAlpha_elim h
  intro he
  subst he
  exact absurd h1 (by decide)

theorem pathChar_ne {c : Char} (h : pathChar c = true) :
    c ≠ '#' ∧ c ≠ '?' ∧ c ≠ ';' := by
  unfold pathChar at h
  rcases Bool.or_eq_true_iff.mp h with h1 | h1
  · obtain ⟨-, -, h3, h4, h5, -⟩ := plainChar_ne h1
    exact ⟨h3, h4, h5⟩
  · rw [beq_iff_eq] at h1
    subst h1
    exact ⟨by decide, by decide, by decide⟩

/-! #### String-utility lemmas for the normalizer -/

theorem joinAmp_mem {c : Char} {parts : List (List Char)} (h : c ∈ joinAmp parts) :
    c = '&' ∨ ∃ p ∈ parts, c ∈ p := by
  cases parts with
  | nil => cases h
  | cons p ps =>
    unfold joinAmp at h
    rcases List.mem_append.mp h with h1 | h1
    · exact Or.inr ⟨p, List.mem_cons_self _ _, h1⟩
    · obtain ⟨q, hq, hcq⟩ := List.mem_flatMap.mp h1
      rcases List.mem_cons.mp hcq with h2 | h2
      · exact Or.inl h2
      · exact Or.inr ⟨q, List.mem_cons_of_mem _ hq, h2⟩

theorem pyStripLeft_eq_self {l : List Char} (h : ∀ c ∈ l, pyIsSpace c = false) :
    pyStripLeft l = l := by
  cases l with
  | nil => rfl
  | cons c rest => simp [pyStripLeft, h c (List.mem_cons_self _ _)]

theorem pyStrip_eq_self {l : List Char} (h : ∀ c ∈ l, pyIsSpace c = false) :
    pyStrip l = l := by
  unfold pyStrip
  rw [pyStripLeft_eq_self (fun c hc => h c (List.mem_reverse.mp hc)),
    List.reverse_reverse, pyStripLeft_eq_self h]

theorem pyLower_eq_self {l : List Char} (h : ∀ c ∈ l, charLower c = c) :
    pyLower l = l := by
  induction l with
  | nil => rfl
  | cons c rest ih =>
    unfold pyLower at ih ⊢
    simp only [List.map_cons]
    rw [h c (List.mem_cons_self _ _), ih (fun x hx => h x (List.mem_cons_of_mem _ hx))]

theorem splitFirstChar_none {sep : Char} {l : List Char} (h : sep ∉ l) :
    splitFirstChar sep l = none := by
  induction l with
  | nil => rfl
  | cons c rest ih =>
    unfold splitFirstChar
    rw [if_neg (by intro he; exact h (he ▸ List.mem_cons_self c rest)),
      ih (fun hm => h (List.mem_cons_of_mem _ hm))]

theorem splitFirstChar_append {sep : Char} {a : List Char} (b : List Char) (h : sep ∉ a) :
    splitFirstChar sep (a ++ sep :: b) = some (a, b) := by
  induction a with
  | nil => simp [splitFirstChar]
  | cons c rest ih =>
    rw [List.cons_append]
    unfold splitFirstChar
    rw [if_neg (by intro he; exact h (he ▸ List.mem_cons_self c rest)),
      ih (fun hm => h (List.mem_cons_of_mem _ hm))]

theorem takeUntilNetlocEnd_append {a b : List Char}
    (ha : ∀ c ∈ a, isNetlocEnd c = false)
    (hb : b = [] ∨ ∃ c, b.head? = some c ∧ isNetlocEnd c = true) :
    takeUntilNetlocEnd (a ++ b) = (a, b) := by
  induction a with
  | nil =>
    rw [List.nil_append]
    rcases hb with rfl | ⟨c, hc, he⟩
    · rfl
    · cases b with
      | nil => cases hc
      | cons x rest =>
        have hx : x = c := by
          rw [List.head?_cons] at hc
          injection hc
        unfold takeUntilNetlocEnd
        rw [hx, he]
        rfl
  | cons c rest ih =>
    rw [List.cons_append]
    unfold takeUntilNetlocEnd
    rw [ha c (List.mem_cons_self _ _)]
    simp only [Bool.false_eq_true, if_false,
      ih (fun x hx => ha x (List.mem_cons_of_mem _ hx))]

theorem splitParamsM_no_semi {p : List Char} (h : ';' ∉ p) : splitParamsM p = (p, []) := by
  unfold splitParamsM
  by_cases hc : p.contains '/'
  · rw [if_pos hc]
    have hsub : ';' ∉ (p.reverse.takeWhile (fun c => !(c == '/'))).reverse := by
      intro hm
      rw [List.mem_reverse] at hm
      exact h (List.mem_reverse.mp ((List.takeWhile_sublist _).subset hm))
    simp only [splitFirstChar_none hsub]
  · rw [if_neg hc]
    simp only [splitFirstChar_none h]

theorem unquotePlus_cons {c : Char} (h1 : c ≠ '+') (h2 : c ≠ '%') (rest : List Char) :
    unquotePlus (c :: rest) = c :: unquotePlus rest := by
  rw [unquotePlus.eq_def]
  split
  · next heq => cases heq
  · next heq =>
    rw [List.cons.injEq] at heq
    exact absurd heq.1 h1
  · next heq =>
    rw [List.cons.injEq] at heq
    exact absurd heq.1 h2
  · next heq =>
    rw [List.cons.injEq] at heq
    rw [heq.1, heq.2]

theorem unquotePlus_plain {l : List Char} (h : ∀ c ∈ l, plainChar c = true) :
    unquotePlus l = l := by
  induction l with
  | nil => rfl
  | cons c rest ih =>
    obtain ⟨-, -, -, -, -, h6, h7, -, -⟩ := plainChar_ne (h c (List.mem_cons_self _ _))
    rw [unquotePlus_cons h6 h7, ih (fun x hx => h x (List.mem_cons_of_mem _ hx))]

theorem splitOnCharGo_no_sep {sep : Char} {l : List Char} (h : sep ∉ l) :
    ∀ acc, splitOnCharGo sep l acc = [acc.reverse ++ l] := by
  induction l with
  | nil => intro acc; simp [splitOnCharGo]
  | cons c rest ih =>
    intro acc
    simp only [splitOnCharGo]
    rw [if_neg (by intro he; exact h (he ▸ List.mem_cons_self c rest)),
      ih (fun hm => h (List.mem_cons_of_mem _ hm))]
    simp

theorem splitOnCharGo_append {sep : Char} {a : List Char} (b : List Char) (h : sep ∉ a) :
    ∀ acc, splitOnCharGo sep (a ++ sep :: b) acc
      = (acc.reverse ++ a) :: splitOnCharGo sep b [] := by
  induction a with
  | nil =>
    intro acc
    rw [List.nil_append]
    simp only [splitOnCharGo]
    simp
  | cons c rest ih =>
    intro acc
    rw [List.cons_append]
    simp only [splitOnCharGo]
    rw [if_neg (by intro he; exact h (he ▸ List.mem_cons_self c rest)),
      ih (fun hm => h (List.mem_cons_of_mem _ hm))]
    simp

theorem splitOnChar_join {parts : List (List Char)} (hne : parts ≠ [])
    (h : ∀ p ∈ parts, '&' ∉ p) : splitOnChar '&' (joinAmp parts) = parts := by
  induction parts with
  | nil => exact absurd rfl hne
  | cons p ps ih =>
    cases ps with
    | nil =>
      have hj : joinAmp [p] = p := by simp [joinAmp]
      unfold splitOnChar
      rw [hj, splitOnCharGo_no_sep (h p (List.mem_cons_self _ _)) []]
      rfl
    | cons q qs =>
      have hjoin : joinAmp (p :: q :: qs) = p ++ '&' :: joinAmp (q :: qs) := by
        unfold joinAmp
        simp [List.flatMap_cons]
      unfold splitOnChar
      rw [hjoin, splitOnCharGo_append _ (h p (List.mem_cons_self _ _)) []]
      rw [List.reverse_nil, List.nil_append]
      have := ih (by simp) (fun x hx => h x (List.mem_cons_of_mem _ hx))
      unfold splitOnChar at this
      rw [this]

theorem addQsValue_append {acc : List (List Char × List (List Char))}
    {k : List Char} (v : List Char) (h : k ∉ acc.map (·.1)) :
    addQsValue acc k v = acc ++ [(k, [v])] := by
  induction acc with
  | nil => rfl
  | cons p rest ih =>
    obtain ⟨k', vs⟩ := p
    unfold addQsValue
    rw [if_neg (fun he => h (by rw [he]; exact List.mem_cons_self _ _)),
      ih (fun hm => h (List.mem_cons_of_mem _ hm))]
    rfl

theorem foldl_addQsValue_nodup {ps : List (List Char × List Char)} :
    ∀ acc : List (List Char × List (List Char)),
      (ps.map (·.1)).Nodup → (∀ p ∈ ps, p.1 ∉ acc.map (·.1)) →
      ps.foldl (fun acc p => addQsValue acc p.1 p.2) acc
        = acc ++ ps.map (fun p => (p.1, [p.2])) := by
  induction ps with
  | nil => intro acc _ _; simp
  | cons p rest ih =>
    intro acc hnd hdisj
    simp only [List.map_cons, List.nodup_cons] at hnd
    simp only [List.foldl_cons]
    rw [addQsValue_append p.2 (hdisj p (List.mem_cons_self _ _))]
    rw [ih _ hnd.2 ?_]
    · simp
    · intro q hq
      simp only [List.map_append, List.map_cons, List.map_nil, List.mem_append,
        List.mem_singleton]
      rintro (hin | hin)
      · exact hdisj q (List.mem_cons_of_mem _ hq) hin
      · exact hnd.1 (hin ▸ List.mem_map.mpr ⟨q, hq, rfl⟩)

theorem filterMap_id_of_some {α : Type} {f : α → Option α} :
    ∀ {l : List α}, (∀ a ∈ l, f a = some a) → l.filterMap f = l := by
  intro l
  induction l with
  | nil => intro _; rfl
  | cons a rest ih =>
    intro h
    simp only [List.filterMap_cons, h a (List.mem_cons_self _ _)]
    rw [ih (fun x hx => h x (List.mem_cons_of_mem _ hx))]

/-- `parse_qs` on a plain single-valued rendered query gives back the
pairs, each with a singleton value list. -/
theorem parseQs_queryBody {qs : List (List Char × List Char)}
    (hnd : (qs.map (·.1)).Nodup)
    (h : ∀ kv ∈ qs, kv.1 ≠ [] ∧ kv.2 ≠ [] ∧
      (∀ c ∈ kv.1, plainChar c = true) ∧ (∀ c ∈ kv.2, plainChar c = true)) :
    parseQs (queryBody qs) = qs.map (fun kv => (kv.1, [kv.2])) := by
  have hqsl : parseQsl (queryBody qs) = qs := by
    cases hqs : qs with
    | nil => rfl
    | cons kv0 rest0 =>
      rw [← hqs]
      unfold parseQsl queryBody
      rw [splitOnChar_join (by rw [hqs]; simp) ?_]
      · rw [List.filterMap_map]
        apply filterMap_id_of_some
        intro kv hkv
        obtain ⟨hk, hv, hpk, hpv⟩ := h kv hkv
        have hek : '=' ∉ kv.1 := fun hm => (plainChar_ne (hpk _ hm)).2.1 rfl
        have hne : (kv.1 ++ '=' :: kv.2).isEmpty = false := by
          cases hx : kv.1 ++ '=' :: kv.2 with
          | nil => exact absurd hx (by simp)
          | cons _ _ => rfl
        simp only [Function.comp_apply, hne, Bool.false_eq_true, if_false,
          splitFirstChar_append kv.2 hek]
        have hvne : kv.2.isEmpty = false := by
          cases hx : kv.2 with
          | nil => exact absurd hx hv
          | cons _ _ => rfl
        simp only [hvne, Bool.false_eq_true, if_false,
          unquotePlus_plain hpk, unquotePlus_plain hpv]
      · intro p hp
        obtain ⟨kv, hkv, rfl⟩ := List.mem_map.mp hp
        obtain ⟨-, -, hpk, hpv⟩ := h kv hkv
        intro hamp
        rcases List.mem_append.mp hamp with hm | hm
        · exact (plainChar_ne (hpk _ hm)).1 rfl
        · rcases List.mem_cons.mp hm with hm | hm
          · cases hm
          · exact (plainChar_ne (hpv _ hm)).1 rfl
  unfold parseQs
  rw [hqsl]
  rw [foldl_addQsValue_nodup [] hnd (by intro p hp; simp)]
  rw [List.nil_append]

theorem lexLeChars_trans : ∀ {a b c : List Char},
    lexLeChars a b = true → lexLeChars b c = true → lexLeChars a c = true
  | [], _, _, _, _ => rfl
  | _ :: _, [], _, h, _ => by cases h
  | _ :: _, _ :: _, [], _, h => by cases h
  | a :: as, b :: bs, c :: cs, h1, h2 => by
    unfold lexLeChars at h1 h2 ⊢
    by_cases hab : a = b
    · subst hab
      rw [if_pos rfl] at h1
      by_cases hbc : a = c
      · subst hbc
        rw [if_pos rfl] at h2 ⊢
        exact lexLeChars_trans h1 h2
      · rw [if_neg hbc] at h2 ⊢
        exact h2
    · rw [if_neg hab] at h1
      by_cases hbc : b = c
      · subst hbc
        rw [if_neg hab]
        exact h1
      · rw [if_neg hbc] at h2
        have hlt1 := of_decide_eq_true h1
        have hlt2 := of_decide_eq_true h2
        have hac : a < c := lt_trans hlt1 hlt2
        rw [if_neg (by intro he; exact absurd (he ▸ hac) (lt_irrefl c)), decide_eq_true hac]

theorem lexLeChars_total : ∀ (a b : List Char),
    lexLeChars a b = true ∨ lexLeChars b a = true
  | [], _ => Or.inl rfl
  | _ :: _, [] => Or.inr rfl
  | a :: as, b :: bs => by
    unfold lexLeChars
    by_cases hab : a = b
    · subst hab
      rw [if_pos rfl, if_pos rfl]
      exact lexLeChars_total as bs
    · rw [if_neg hab, if_neg (fun he => hab he.symm)]
      rcases lt_trichotomy a b with h | h | h
      · exact Or.inl (decide_eq_true h)
      · exact absurd h hab
      · exact Or.inr (decide_eq_true h)

instance : IsTrans (List Char × List Char) pairKeyLe :=
  ⟨fun _ _ _ h1 h2 => lexLeChars_trans h1 h2⟩

instance : IsTotal (List Char × List Char) pairKeyLe :=
  ⟨fun a b => lexLeChars_total a.1 b.1⟩

instance : IsTrans (List Char × List (List Char)) qsKeyLe :=
  ⟨fun _ _ _ h1 h2 => lexLeChars_trans h1 h2⟩

instance : IsTotal (List Char × List (List Char)) qsKeyLe :=
  ⟨fun a b => lexLeChars_total a.1 b.1⟩

/-! #### Trailing-slash stripping -/

theorem dropSlashesLeft_cons_pos {c : Char} (hc : c = '/') (rest : List Char) :
    dropSlashesLeft (c :: rest) = dropSlashesLeft rest := by
  simp only [dropSlashesLeft]
  rw [if_pos hc]

theorem dropSlashesLeft_cons_neg {c : Char} (hc : c ≠ '/') (rest : List Char) :
    dropSlashesLeft (c :: rest) = c :: rest := by
  simp only [dropSlashesLeft]
  rw [if_neg hc]

theorem dropSlashesLeft_idem (l : List Char) :
    dropSlashesLeft (dropSlashesLeft l) = dropSlashesLeft l := by
  induction l with
  | nil => rfl
  | cons c rest ih =>
    by_cases hc : c = '/'
    · rw [dropSlashesLeft_cons_pos hc]
      exact ih
    · rw [dropSlashesLeft_cons_neg hc, dropSlashesLeft_cons_neg hc]

theorem rstripSlashes_idem (p : List Char) :
    rstripSlashes (rstripSlashes p) = rstripSlashes p := by
  unfold rstripSlashes
  rw [List.reverse_reverse, dropSlashesLeft_idem]

theorem dropSlashesLeft_suffix (l : List Char) : ∃ t, t ++ dropSlashesLeft l = l := by
  induction l with
  | nil => exact ⟨[], rfl⟩
  | cons c rest ih =>
    unfold dropSlashesLeft
    by_cases hc : c = '/'
    · rw [if_pos hc]
      obtain ⟨t, ht⟩ := ih
      exact ⟨c :: t, by rw [List.cons_append, ht]⟩
    · rw [if_neg hc]
      exact ⟨[], rfl⟩

theorem rstripSlashes_isPre (p : List Char) : ∃ t, rstripSlashes p ++ t = p := by
  obtain ⟨t, ht⟩ := dropSlashesLeft_suffix p.reverse
  refine ⟨t.reverse, ?_⟩
  unfold rstripSlashes
  rw [← List.reverse_append, ht, List.reverse_reverse]

theorem rstripSlashes_head {p : List Char} (h : p.head? = some '/') :
    rstripSlashes p = [] ∨ (rstripSlashes p).head? = some '/' := by
  obtain ⟨t, ht⟩ := rstripSlashes_isPre p
  cases hx : rstripSlashes p with
  | nil => exact Or.inl rfl
  | cons c rest =>
    right
    rw [hx] at ht
    rw [← ht, List.cons_append, List.head?_cons] at h
    rw [List.head?_cons]
    exact h

theorem rstripSlashes_subset {p : List Char} {c : Char} (h : c ∈ rstripSlashes p) :
    c ∈ p := by
  obtain ⟨t, ht⟩ := rstripSlashes_isPre p
  rw [← ht]
  exact List.mem_append.mpr (Or.inl h)

/-! #### Parsing the rendered plain URL -/

theorem query_mem_plain {qs : List (List Char × List Char)}
    (hq : ∀ kv ∈ qs, kv.1 ≠ [] ∧ kv.2 ≠ [] ∧
      (∀ c ∈ kv.1, plainChar c = true) ∧ (∀ c ∈ kv.2, plainChar c = true))
    {c : Char} (h : c ∈ queryBody qs) : c = '&' ∨ c = '=' ∨ plainChar c = true := by
  unfold queryBody at h
  rcases joinAmp_mem h with h1 | ⟨p, hp, hcp⟩
  · exact Or.inl h1
  · obtain ⟨kv, hkv, rfl⟩ := List.mem_map.mp hp
    obtain ⟨-, -, hpk, hpv⟩ := hq kv hkv
    rcases List.mem_append.mp hcp with h2 | h2
    · exact Or.inr (Or.inr (hpk _ h2))
    · rcases List.mem_cons.mp h2 with h3 | h3
      · exact Or.inr (Or.inl h3)
      · exact Or.inr (Or.inr (hpv _ h3))

theorem urlparse_renderUrl {scheme host path : List Char}
    {qs : List (List Char × List Char)} (h : PlainUrlParts scheme host path qs) :
    urlparseM (renderUrl scheme host path qs)
      = ⟨scheme, host, path, [], queryBody qs, []⟩ := by
  obtain ⟨hs, hsc, hh, hhc, hph, hpc, hnd, hq⟩ := h
  have hcolon : ':' ∉ scheme := fun hm => lowerAlpha_ne_colon (hsc _ hm) rfl
  have hsplit : splitFirstChar ':' (renderUrl scheme host path qs)
      = some (scheme, '/' :: '/' :: (host ++ path ++ renderQuery qs)) := by
    unfold renderUrl
    exact splitFirstChar_append _ hcolon
  have hsemi : ';' ∉ path := fun hm => (pathChar_ne (hpc _ hm)).2.2 rfl
  have hqpath : '?' ∉ path := fun hm => (pathChar_ne (hpc _ hm)).2.1 rfl
  have hnet : takeUntilNetlocEnd (host ++ path ++ renderQuery qs)
      = (host, path ++ renderQuery qs) := by
    rw [List.append_assoc]
    apply takeUntilNetlocEnd_append
    · exact fun c hc => hostChar_not_netlocEnd (hhc c hc)
    · cases hpath : path with
      | cons p0 prest =>
        rcases hph with h0 | h0
        · rw [hpath] at h0
          cases h0
        · rw [hpath, List.head?_cons] at h0
          have hp0 : p0 = '/' := by injection h0
          subst hp0
          exact Or.inr ⟨'/', by rw [List.cons_append, List.head?_cons], by decide⟩
      | nil =>
        cases hqs : qs with
        | nil => exact Or.inl rfl
        | cons kv rest =>
          refine Or.inr ⟨'?', ?_, by decide⟩
          rw [List.nil_append]
          rfl
  have hfrag : splitFirstChar '#' (path ++ renderQuery qs) = none := by
    apply splitFirstChar_none
    intro hm
    rcases List.mem_append.mp hm with hm | hm
    · exact (pathChar_ne (hpc _ hm)).1 rfl
    · cases hqs : qs with
      | nil =>
        rw [hqs] at hm
        cases hm
      | cons kv rest =>
        rw [hqs] at hm
        rcases List.mem_cons.mp hm with h0 | h0
        · exact absurd h0 (by decide)
        · rcases query_mem_plain (fun kv hkv => hq kv (hqs ▸ hkv)) h0 with h1 | h1 | h1
          · exact absurd h1 (by decide)
          · exact absurd h1 (by decide)
          · exact (plainChar_ne h1).2.2.1 rfl
  cases hscheme : scheme with
  | nil => exact absurd hscheme hs
  | cons c0 srest =>
    subst hscheme
    have halpha : c0.isAlpha = true := lowerAlpha_isAlpha (hsc c0 (List.mem_cons_self _ _))
    have hschemechars : (c0 :: srest).all schemeChar = true := by
      rw [List.all_eq_true]
      exact fun c hc => lowerAlpha_schemeChar (hsc c hc)
    have hstart : listStartsWith ('/' :: '/' :: (host ++ path ++ renderQuery qs)) ['/', '/']
        = true := by
      simp [listStartsWith]
    cases hqs : qs with
    | nil =>
      have hquery : splitFirstChar '?' (path ++ renderQuery ([] : List (List Char × List Char)))
          = none := by
        rw [show renderQuery ([] : List (List Char × List Char)) = [] from rfl,
          List.append_nil]
        exact splitFirstChar_none hqpath
      rw [hqs] at hsplit hnet hfrag hstart
      unfold urlparseM
      simp only [hsplit, halpha, hschemechars, Bool.and_self, if_true, hstart,
        eq_self_iff_true, List.drop_succ_cons, List.drop_zero, hnet, hfrag, hquery]
      rw [show renderQuery ([] : List (List Char × List Char)) = [] from rfl,
        List.append_nil, splitParamsM_no_semi hsemi]
      rfl
    | cons kv rest =>
      have hquery : splitFirstChar '?' (path ++ renderQuery (kv :: rest))
          = some (path, queryBody (kv :: rest)) := by
        rw [show renderQuery (kv :: rest) = '?' :: queryBody (kv :: rest) from rfl]
        exact splitFirstChar_append _ hqpath
      rw [hqs] at hsplit hnet hfrag hstart
      unfold urlparseM
      simp only [hsplit, halpha, hschemechars, Bool.and_self, if_true, hstart,
        eq_self_iff_true, List.drop_succ_cons, List.drop_zero, hnet, hfrag, hquery,
        splitParamsM_no_semi hsemi]

/-- `_normalize_url` on a rendered plain URL: the strip/lower steps are
identities, parsing recovers the components, and the result is the same
URL with trailing slashes stripped from the path and the query filtered
of tracking parameters and sorted by key. -/
theorem normalizeUrl_renderUrl {scheme host path : List Char}
    {qs : List (List Char × List Char)} (h : PlainUrlParts scheme host path qs) :
    normalizeUrl (renderUrl scheme host path qs)
      = renderUrl scheme host (rstripSlashes path)
          (List.insertionSort pairKeyLe
            (qs.filter (fun kv => !(trackingParams.contains kv.1)))) := by
  obtain ⟨hs, hsc, hh, hhc, hph, hpc, hnd, hq⟩ := h
  have hclean : ∀ c ∈ renderUrl scheme host path qs,
      pyIsSpace c = false ∧ charLower c = c := by
    intro c hc
    unfold renderUrl at hc
    rcases List.mem_append.mp hc with h1 | h1
    · exact lowerAlpha_clean (hsc c h1)
    · rcases List.mem_cons.mp h1 with h2 | h2
      · subst h2; exact ⟨by decide, by decide⟩
      · rcases List.mem_cons.mp h2 with h3 | h3
        · subst h3; exact ⟨by decide, by decide⟩
        · rcases List.mem_cons.mp h3 with h4 | h4
          · subst h4; exact ⟨by decide, by decide⟩
          · rcases List.mem_append.mp h4 with h5 | h5
            · rcases List.mem_append.mp h5 with h6 | h6
              · exact hostChar_clean (hhc c h6)
              · exact pathChar_clean (hpc c h6)
            · cases hqs2 : qs with
              | nil =>
                rw [hqs2] at h5
                rw [show renderQuery ([] : List (List Char × List Char)) = []
                  from rfl] at h5
                cases h5
              | cons kv rest =>
                rw [hqs2] at h5
                rw [show renderQuery (kv :: rest) = '?' :: queryBody (kv :: rest)
                  from rfl] at h5
                rcases List.mem_cons.mp h5 with h7 | h7
                · subst h7; exact ⟨by decide, by decide⟩
                · rcases query_mem_plain (fun kv2 hkv2 => hq kv2 (hqs2 ▸ hkv2)) h7 with
                    h8 | h8 | h8
                  · subst h8; exact ⟨by decide, by decide⟩
                  · subst h8; exact ⟨by decide, by decide⟩
                  · exact plainChar_clean h8
  have hne : (renderUrl scheme host path qs).isEmpty = false := by
    cases hsch : scheme with
    | nil => exact absurd hsch hs
    | cons c0 srest => subst hsch; rfl
  have ht : pyLower (pyStrip (renderUrl scheme host path qs))
      = renderUrl scheme host path qs := by
    rw [pyStrip_eq_self (fun c hc => (hclean c hc).1)]
    exact pyLower_eq_self (fun c hc => (hclean c hc).2)
  have hp : urlparseM (renderUrl scheme host path qs)
      = ⟨scheme, host, path, [], queryBody qs, []⟩ :=
    urlparse_renderUrl ⟨hs, hsc, hh, hhc, hph, hpc, hnd, hq⟩
  have hparse : parseQs (queryBody qs) = qs.map (fun kv => (kv.1, [kv.2])) :=
    parseQs_queryBody hnd hq
  have hfilter : (qs.map (fun kv => (kv.1, [kv.2]))).filter
        (fun kv => !(trackingParams.contains kv.1))
      = (qs.filter (fun kv => !(trackingParams.contains kv.1))).map
        (fun kv => (kv.1, [kv.2])) := by
    rw [List.filter_map]
    rfl
  have hsortmap : List.insertionSort qsKeyLe
        ((qs.filter (fun kv => !(trackingParams.contains kv.1))).map
          (fun kv => (kv.1, [kv.2])))
      = (List.insertionSort pairKeyLe
          (qs.filter (fun kv => !(trackingParams.contains kv.1)))).map
        (fun kv => (kv.1, [kv.2])) :=
    (List.map_insertionSort pairKeyLe qsKeyLe (fun kv => (kv.1, [kv.2]))
      (qs.filter (fun kv => !(trackingParams.contains kv.1)))
      (fun a _ b _ => Iff.rfl)).symm
  have hmapjoin : ∀ l : List (List Char × List Char),
      (l.map (fun kv => (kv.1, [kv.2]))).map
          (fun kv => kv.1 ++ '=' :: joinAmp kv.2)
        = l.map (fun kv => kv.1 ++ '=' :: kv.2) := by
    intro l
    rw [List.map_map]
    apply List.map_congr_left
    intro kv _
    simp [joinAmp]
  unfold normalizeUrl
  rw [if_neg (by rw [hne]; exact Bool.false_ne_true)]
  simp only [ht, hp, hparse]
  rw [hfilter, hsortmap, hmapjoin]
  cases hS : List.insertionSort pairKeyLe
      (qs.filter (fun kv => !(trackingParams.contains kv.1))) with
  | nil => simp [renderUrl, renderQuery, joinAmp]
  | cons kv rest => simp [renderUrl, renderQuery, queryBody, joinAmp, List.append_assoc]

/-- The plain-URL class is preserved by one normalization pass. -/
theorem plainParts_preserved {scheme host path : List Char}
    {qs : List (List Char × List Char)} (h : PlainUrlParts scheme host path qs) :
    PlainUrlParts scheme host (rstripSlashes path)
      (List.insertionSort pairKeyLe
        (qs.filter (fun kv => !(trackingParams.contains kv.1)))) := by
  obtain ⟨hs, hsc, hh, hhc, hph, hpc, hnd, hq⟩ := h
  refine ⟨hs, hsc, hh, hhc, ?_, ?_, ?_, ?_⟩
  · rcases hph with h0 | h0
    · subst h0; exact Or.inl rfl
    · exact rstripSlashes_head h0
  · exact fun c hc => hpc c (rstripSlashes_subset hc)
  · have hperm := (List.perm_insertionSort pairKeyLe
      (qs.filter (fun kv => !(trackingParams.contains kv.1)))).map (fun x => x.1)
    refine (hperm.nodup_iff).mpr ?_
    exact hnd.sublist ((List.filter_sublist qs).map (fun x => x.1))
  · intro kv hkv
    exact hq kv (List.mem_filter.mp ((List.mem_insertionSort pairKeyLe).mp hkv)).1

/-- C3 (amended): on plain URLs — a lowercase alphabetic scheme, a plain
host, an absolute plain path and a single-valued query whose distinct
keys and non-empty values use only unreserved lowercase characters —
`_normalize_url` is idempotent. -/
theorem normalizeUrl_idempotent_on_plain {scheme host path : List Char}
    {qs : List (List Char × List Char)} (h : PlainUrlParts scheme host path qs) :
    normalizeUrl (normalizeUrl (renderUrl scheme host path qs))
      = normalizeUrl (renderUrl scheme host path qs) := by
  rw [normalizeUrl_renderUrl h, normalizeUrl_renderUrl (plainParts_preserved h),
    rstripSlashes_idem]
  congr 1
  have hfs : (List.insertionSort pairKeyLe
        (qs.filter (fun kv => !(trackingParams.contains kv.1)))).filter
        (fun kv => !(trackingParams.contains kv.1))
      = List.insertionSort pairKeyLe
        (qs.filter (fun kv => !(trackingParams.contains kv.1))) := by
    apply List.filter_eq_self.mpr
    intro kv hkv
    exact (List.mem_filter.mp ((List.mem_insertionSort pairKeyLe).mp hkv)).2
  rw [hfs]
  exact List.Sorted.insertionSort_eq
    (List.sorted_insertionSort pairKeyLe _)

theorem normalizeUrl_idempotent_on_plain_witness :
    PlainUrlParts "http".data "x.com".data "/a/".data
        [("b".data, "2".data), ("a".data, "1".data)] ∧
    normalizeUrl (normalizeUrl (renderUrl "http".data "x.com".data "/a/".data
        [("b".data, "2".data), ("a".data, "1".data)]))
      = normalizeUrl (renderUrl "http".data "x.com".data "/a/".data
        [("b".data, "2".data), ("a".data, "1".data)]) :=
  ⟨by unfold PlainUrlParts; decide,
    normalizeUrl_idempotent_on_plain (by unfold PlainUrlParts; decide)⟩

/-! ### C5: export_html and re-parsing -/

/-- One pass of Python `str.replace` for a single-character pattern. -/
def replaceChar (p : Char) (rep : List Char) (l : List Char) : List Char :=
  l.flatMap (fun c => if c = p then rep else [c])

/-- `DataExporter._escape_html`: the five chained `str.replace` calls, in
source order (`&` first, then `<`, `>`, `"` and the apostrophe,
`Char.ofNat 39`). -/
def escapeHtml (l : List Char) : List Char :=
  replaceChar (Char.ofNat 39) "&#x27;".data
    (replaceChar '"' "&quot;".data
      (replaceChar '>' "&gt;".data
        (replaceChar '<' "&lt;".data
          (replaceChar '&' "&amp;".data l))))

/-- The per-character effect of the whole escape chain. -/
def escapeChar (c : Char) : List Char :=
  if c = '&' then "&amp;".data
  else if c = '<' then "&lt;".data
  else if c = '>' then "&gt;".data
  else if c = '"' then "&quot;".data
  else if c = Char.ofNat 39 then "&#x27;".data
  else [c]

/-- Entity decoding done by the HTML parser when it reads back attribute
values and anchor text, restricted to the five entities this exporter
emits; any other character passes through. -/
def unescapeHtml : List Char → List Char
  | '&' :: 'a' :: 'm' :: 'p' :: ';' :: rest => '&' :: unescapeHtml rest
  | '&' :: 'l' :: 't' :: ';' :: rest => '<' :: unescapeHtml rest
  | '&' :: 'g' :: 't' :: ';' :: rest => '>' :: unescapeHtml rest
  | '&' :: 'q' :: 'u' :: 'o' :: 't' :: ';' :: rest => '"' :: unescapeHtml rest
  | '&' :: '#' :: 'x' :: '2' :: '7' :: ';' :: rest => Char.ofNat 39 :: unescapeHtml rest
  | c :: rest => c :: unescapeHtml rest
  | [] => []

theorem escapeHtml_cons (c : Char) (r : List Char) :
    escapeHtml (c :: r) = escapeChar c ++ escapeHtml r := by
  by_cases h1 : c = '&'
  · subst h1; rfl
  by_cases h2 : c = '<'
  · subst h2; rfl
  by_cases h3 : c = '>'
  · subst h3; rfl
  by_cases h4 : c = '"'
  · subst h4; rfl
  by_cases h5 : c = Char.ofNat 39
  · subst h5; rfl
  simp only [escapeHtml, escapeChar, replaceChar, List.flatMap_cons, List.flatMap_append,
    List.flatMap_nil, List.append_nil, if_neg h1, if_neg h2, if_neg h3, if_neg h4,
    if_neg h5]

theorem escapeHtml_append (a b : List Char) :
    escapeHtml (a ++ b) = escapeHtml a ++ escapeHtml b := by
  induction a with
  | nil => rfl
  | cons c r ih =>
    rw [List.cons_append, escapeHtml_cons, escapeHtml_cons, ih, List.append_assoc]

set_option maxHeartbeats 1600000 in
theorem unescapeHtml_cons {c : Char} (h : c ≠ '&') (X : List Char) :
    unescapeHtml (c :: X) = c :: unescapeHtml X := by
  rw [unescapeHtml.eq_def]
  split
  · next heq =>
    rw [List.cons.injEq] at heq
    exact absurd heq.1 h
  · next heq =>
    rw [List.cons.injEq] at heq
    exact absurd heq.1 h
  · next heq =>
    rw [List.cons.injEq] at heq
    exact absurd heq.1 h
  · next heq =>
    rw [List.cons.injEq] at heq
    exact absurd heq.1 h
  · next heq =>
    rw [List.cons.injEq] at heq
    exact absurd heq.1 h
  · next heq =>
    rw [List.cons.injEq] at heq
    rw [heq.1, heq.2]
  · next heq => cases heq

/-- The exporter escape and the parser decode are a round trip. -/
theorem unescape_escape (l : List Char) : unescapeHtml (escapeHtml l) = l := by
  induction l with
  | nil => rfl
  | cons c r ih =>
    rw [escapeHtml_cons]
    by_cases h1 : c = '&'
    · subst h1
      show unescapeHtml ('&' :: 'a' :: 'm' :: 'p' :: ';' :: escapeHtml r) = _
      rw [show ∀ X, unescapeHtml ('&' :: 'a' :: 'm' :: 'p' :: ';' :: X)
        = '&' :: unescapeHtml X from fun X => rfl, ih]
    by_cases h2 : c = '<'
    · subst h2
      show unescapeHtml ('&' :: 'l' :: 't' :: ';' :: escapeHtml r) = _
      rw [show ∀ X, unescapeHtml ('&' :: 'l' :: 't' :: ';' :: X)
        = '<' :: unescapeHtml X from fun X => rfl, ih]
    by_cases h3 : c = '>'
    · subst h3
      show unescapeHtml ('&' :: 'g' :: 't' :: ';' :: escapeHtml r) = _
      rw [show ∀ X, unescapeHtml ('&' :: 'g' :: 't' :: ';' :: X)
        = '>' :: unescapeHtml X from fun X => rfl, ih]
    by_cases h4 : c = '"'
    · subst h4
      show unescapeHtml ('&' :: 'q' :: 'u' :: 'o' :: 't' :: ';' :: escapeHtml r) = _
      rw [show ∀ X, unescapeHtml ('&' :: 'q' :: 'u' :: 'o' :: 't' :: ';' :: X)
        = '"' :: unescapeHtml X from fun X => rfl, ih]
    by_cases h5 : c = Char.ofNat 39
    · subst h5
      show unescapeHtml ('&' :: '#' :: 'x' :: '2' :: '7' :: ';' :: escapeHtml r) = _
      rw [show ∀ X, unescapeHtml ('&' :: '#' :: 'x' :: '2' :: '7' :: ';' :: X)
        = Char.ofNat 39 :: unescapeHtml X from fun X => rfl, ih]
    have hblock : escapeChar c = [c] := by
      simp only [escapeChar, if_neg h1, if_neg h2, if_neg h3, if_neg h4, if_neg h5]
    rw [hblock, List.singleton_append, unescapeHtml_cons h1, ih]

/-- `DataExporter._get_confidence_indicator` (the config flag
`show_confidence_indicator`, default true, passed explicitly). -/
def confidenceIndicator (showInd : Bool) (confidence : ℚ) : List Char :=
  if !showInd then []
  else if 9/10 ≤ confidence then ['🟢']
  else if 7/10 ≤ confidence then ['🟡']
  else if 5/10 ≤ confidence then ['🟠']
  else if 0 < confidence then ['🔴']
  else []

/-- `DataExporter._format_bookmark_html` reduced to the data the parser
recovers: the escaped href attribute and the displayed anchor text
(indicator, space, emoji-cleaned escaped title). -/
def anchorOf (showInd : Bool) (it : BItem) : List Char × List Char :=
  (escapeHtml it.url.data,
    if (confidenceIndicator showInd it.confidence).isEmpty then
      cleanEmojiTitle (escapeHtml it.title.data)
    else
      confidenceIndicator showInd it.confidence
        ++ ' ' :: cleanEmojiTitle (escapeHtml it.title.data))

/-- The `<A HREF=...>` anchors `_generate_html_content` emits, in document
order: each category's direct items, then each subcategory's items.  The
`<H3>` folder headers carry no `href` and are skipped by
`find_all('a', href=True)`. -/
def generateAnchors (showInd : Bool) (organized : List (String × CatNode)) :
    List (List Char × List Char) :=
  organized.flatMap (fun kv =>
    kv.2.items.map (anchorOf showInd)
      ++ kv.2.subcategories.flatMap (fun skv => skv.2.items.map (anchorOf showInd)))

/-- The `(url, title)` pairs contained in the organized tree. -/
def treePairs (organized : List (String × CatNode)) : List (String × String) :=
  organized.flatMap (fun kv =>
    kv.2.items.map (fun it => (it.url, it.title))
      ++ kv.2.subcategories.flatMap (fun skv =>
        skv.2.items.map (fun it => (it.url, it.title))))

/-- Every bookmark of the organized tree. -/
def allItems (organized : List (String × CatNode)) : List BItem :=
  organized.flatMap (fun kv =>
    kv.2.items ++ kv.2.subcategories.flatMap (fun skv => skv.2.items))

/-- `_load_bookmarks_from_file` applied to the exported anchors: the
parser decodes the entities, then each anchor runs through the keep
logic of `loadAnchor`. -/
def loadPairs (anchors : List (List Char × List Char)) : List (String × String) :=
  anchors.filterMap (fun a =>
    loadAnchor (String.mk (unescapeHtml a.1)) (String.mk (unescapeHtml a.2)))

/-- Bookmarks that survive the export/re-parse round trip unchanged: a
valid already-stripped URL and a non-empty title that neither starts with
an indicator emoji nor has surrounding whitespace. -/
def GoodItem (it : BItem) : Prop :=
  pyStrip it.url.data = it.url.data ∧
  isValidUrl it.url = true ∧
  it.title.data ≠ [] ∧
  (∀ c ∈ it.title.data.head?.toList,
    pyIsSpace c = false ∧ indicatorEmojis.contains c = false) ∧
  (∀ c ∈ it.title.data.getLast?.toList, pyIsSpace c = false)

theorem pyStripLeft_eq_self_head {l : List Char}
    (h : ∀ c ∈ l.head?.toList, pyIsSpace c = false) : pyStripLeft l = l := by
  cases l with
  | nil => rfl
  | cons c r =>
    have hc := h c (by simp)
    simp [pyStripLeft, hc]

theorem pyStrip_eq_self_ends {l : List Char}
    (hh : ∀ c ∈ l.head?.toList, pyIsSpace c = false)
    (hl : ∀ c ∈ l.getLast?.toList, pyIsSpace c = false) : pyStrip l = l := by
  have h1 : pyStripLeft l.reverse = l.reverse := by
    apply pyStripLeft_eq_self_head
    rw [List.head?_reverse]
    exact hl
  unfold pyStrip
  rw [h1, List.reverse_reverse, pyStripLeft_eq_self_head hh]

theorem escapeChar_spec (c : Char) :
    escapeChar c = [c]
      ∨ ((escapeChar c).head? = some '&' ∧ (escapeChar c).getLast? = some ';') := by
  by_cases h1 : c = '&'
  · subst h1; exact Or.inr ⟨by decide, by decide⟩
  by_cases h2 : c = '<'
  · subst h2; exact Or.inr ⟨by decide, by decide⟩
  by_cases h3 : c = '>'
  · subst h3; exact Or.inr ⟨by decide, by decide⟩
  by_cases h4 : c = '"'
  · subst h4; exact Or.inr ⟨by decide, by decide⟩
  by_cases h5 : c = Char.ofNat 39
  · subst h5; exact Or.inr ⟨by decide, by decide⟩
  left
  simp only [escapeChar, if_neg h1, if_neg h2, if_neg h3, if_neg h4, if_neg h5]

theorem escapeChar_ne_nil (c : Char) : escapeChar c ≠ [] := by
  rcases escapeChar_spec c with h | h
  · rw [h]; simp
  · intro he
    rw [he] at h
    exact Option.noConfusion h.1

theorem escapeHtml_head {l : List Char}
    (h : ∀ c ∈ l.head?.toList, pyIsSpace c = false ∧ indicatorEmojis.contains c = false) :
    ∀ c ∈ (escapeHtml l).head?.toList,
      pyIsSpace c = false ∧ indicatorEmojis.contains c = false := by
  cases l with
  | nil =>
    intro c hc
    rw [show escapeHtml [] = [] from rfl] at hc
    cases hc
  | cons c0 r =>
    intro c hc
    rw [escapeHtml_cons] at hc
    rcases escapeChar_spec c0 with hs | hs
    · rw [hs, List.singleton_append] at hc
      have hcc : c = c0 := by simpa using hc
      subst hcc
      exact h c (by simp)
    · rw [List.head?_append, hs.1] at hc
      have hcc : c = '&' := by simpa using hc
      subst hcc
      exact ⟨by decide, by decide⟩

theorem escapeHtml_last {l : List Char}
    (h : ∀ c ∈ l.getLast?.toList, pyIsSpace c = false) :
    ∀ c ∈ (escapeHtml l).getLast?.toList, pyIsSpace c = false := by
  rcases List.eq_nil_or_concat l with rfl | ⟨L, b, rfl⟩
  · intro c hc
    rw [show escapeHtml [] = [] from rfl] at hc
    cases hc
  · intro c hc
    have hb : escapeHtml [b] = escapeChar b := by
      rw [show ([b] : List Char) = b :: [] from rfl, escapeHtml_cons,
        show escapeHtml [] = [] from rfl, List.append_nil]
    rw [List.concat_eq_append, escapeHtml_append, List.getLast?_append, hb] at hc
    have hlast : (L.concat b).getLast? = some b := by
      rw [List.concat_eq_append]
      exact List.getLast?_concat _
    rcases escapeChar_spec b with hs | hs
    · rw [hs] at hc
      have hcc : c = b := by simpa using hc
      subst hcc
      exact h c (by rw [hlast]; simp)
    · rw [hs.2] at hc
      have hcc : c = ';' := by simpa using hc
      subst hcc
      decide

theorem cleanEmojiTitle_plain {l : List Char} (hne : l ≠ [])
    (hh : ∀ c ∈ l.head?.toList, pyIsSpace c = false ∧ indicatorEmojis.contains c = false)
    (hl : ∀ c ∈ l.getLast?.toList, pyIsSpace c = false) :
    cleanEmojiTitle l = l := by
  cases l with
  | nil => exact absurd rfl hne
  | cons c r =>
    have hc := hh c (by simp)
    show (if indicatorEmojis.contains c = true then pyStrip (dropIndicatorRun r)
      else pyStrip (c :: r)) = c :: r
    rw [if_neg (by rw [hc.2]; exact Bool.false_ne_true)]
    exact pyStrip_eq_self_ends (fun x hx => (hh x hx).1) hl

theorem dropIndicatorRun_space (r : List Char) :
    dropIndicatorRun (' ' :: r) = dropIndicatorRun r := rfl

theorem dropIndicatorRun_stop {c : Char} (h1 : pyIsSpace c = false)
    (h2 : indicatorEmojis.contains c = false) (r : List Char) :
    dropIndicatorRun (c :: r) = c :: r := by
  unfold dropIndicatorRun
  rw [h1, h2]
  rfl

theorem confidenceIndicator_spec (b : Bool) (q : ℚ) :
    confidenceIndicator b q = []
      ∨ ∃ e, confidenceIndicator b q = [e] ∧ indicatorEmojis.contains e = true
          ∧ e ≠ '&' ∧ pyIsSpace e = false := by
  unfold confidenceIndicator
  split
  · exact Or.inl rfl
  · split
    · exact Or.inr ⟨'🟢', rfl, by decide, by decide, by decide⟩
    · split
      · exact Or.inr ⟨'🟡', rfl, by decide, by decide, by decide⟩
      · split
        · exact Or.inr ⟨'🟠', rfl, by decide, by decide, by decide⟩
        · split
          · exact Or.inr ⟨'🔴', rfl, by decide, by decide, by decide⟩
          · exact Or.inl rfl

/-- The keep-logic of the loader accepts a good URL together with any
anchor text that strips to itself and emoji-cleans to the item title. -/
theorem loadAnchor_plain {td : List Char} {it : BItem}
    (hu : pyStrip it.url.data = it.url.data) (hv : isValidUrl it.url = true)
    (ht1 : it.title.data ≠ [])
    (hstrip2 : pyStrip td = td) (hclean2 : cleanEmojiTitle td = it.title.data) :
    loadAnchor it.url (String.mk td) = some (it.url, it.title) := by
  have hune : it.url ≠ "" := by
    intro he
    rw [he] at hv
    exact absurd hv (by decide)
  have htne : it.title ≠ "" := by
    intro he
    exact ht1 (by rw [he])
  simp only [loadAnchor, pyStripStr]
  rw [hu]
  rw [show String.mk it.url.data = it.url from rfl]
  rw [hstrip2, hclean2]
  rw [show String.mk it.title.data = it.title from rfl]
  rw [if_pos (by rw [hv, bne_iff_ne.mpr hune, bne_iff_ne.mpr htne]; rfl)]

/-- Exporting a good bookmark and re-parsing its anchor recovers exactly
its `(url, title)` pair. -/
theorem loadAnchor_anchorOf (showInd : Bool) {it : BItem} (h : GoodItem it) :
    loadAnchor (String.mk (unescapeHtml (anchorOf showInd it).1))
        (String.mk (unescapeHtml (anchorOf showInd it).2))
      = some (it.url, it.title) := by
  obtain ⟨hu, hv, ht1, ht2, ht3⟩ := h
  have hurl : unescapeHtml (anchorOf showInd it).1 = it.url.data := by
    rw [show (anchorOf showInd it).1 = escapeHtml it.url.data from rfl, unescape_escape]
  have hesc_ne : escapeHtml it.title.data ≠ [] := by
    cases hx : it.title.data with
    | nil => exact absurd hx ht1
    | cons c r =>
      rw [escapeHtml_cons]
      intro he
      exact escapeChar_ne_nil c (List.append_eq_nil.mp he).1
  have hclean : cleanEmojiTitle (escapeHtml it.title.data) = escapeHtml it.title.data :=
    cleanEmojiTitle_plain hesc_ne (escapeHtml_head ht2) (escapeHtml_last ht3)
  have hstripT : pyStrip it.title.data = it.title.data :=
    pyStrip_eq_self_ends (fun x hx => (ht2 x hx).1) ht3
  have hcleanT : cleanEmojiTitle it.title.data = it.title.data :=
    cleanEmojiTitle_plain ht1 ht2 ht3
  rcases confidenceIndicator_spec showInd it.confidence with hind | ⟨e, hind, he1, he2, he3⟩
  · have hdisp : (anchorOf showInd it).2 = cleanEmojiTitle (escapeHtml it.title.data) := by
      unfold anchorOf
      rw [hind]
      rfl
    have htext : unescapeHtml (anchorOf showInd it).2 = it.title.data := by
      rw [hdisp, hclean, unescape_escape]
    rw [hurl, htext, show String.mk it.url.data = it.url from rfl]
    exact loadAnchor_plain hu hv ht1 hstripT hcleanT
  · have hdisp : (anchorOf showInd it).2 = e :: ' ' :: escapeHtml it.title.data := by
      unfold anchorOf
      rw [hind, hclean]
      rfl
    have htext : unescapeHtml (anchorOf showInd it).2 = e :: ' ' :: it.title.data := by
      rw [hdisp, unescapeHtml_cons he2,
        unescapeHtml_cons (by decide : (' ' : Char) ≠ '&'), unescape_escape]
    have hstrip2 : pyStrip (e :: ' ' :: it.title.data) = e :: ' ' :: it.title.data := by
      apply pyStrip_eq_self_ends
      · intro c hc
        have hce : c = e := by simpa using hc
        subst hce
        exact he3
      · intro c hc
        apply ht3
        cases hx : it.title.data with
        | nil => exact absurd hx ht1
        | cons c0 r =>
          rw [hx, List.getLast?_cons_cons, List.getLast?_cons_cons] at hc
          exact hc
    have hclean2 : cleanEmojiTitle (e :: ' ' :: it.title.data) = it.title.data := by
      show (if indicatorEmojis.contains e = true then
          pyStrip (dropIndicatorRun (' ' :: it.title.data))
        else pyStrip (e :: ' ' :: it.title.data)) = it.title.data
      rw [if_pos he1, dropIndicatorRun_space]
      cases hx : it.title.data with
      | nil => exact absurd hx ht1
      | cons c0 r =>
        have hc0 := ht2 c0 (by rw [hx]; simp)
        rw [dropIndicatorRun_stop hc0.1 hc0.2, ← hx]
        exact hstripT
    rw [hurl, htext, show String.mk it.url.data = it.url from rfl]
    exact loadAnchor_plain hu hv ht1 hstrip2 hclean2

theorem filterMap_eq_map_of_some {α β : Type} {g : α → Option β} {f : α → β} :
    ∀ {l : List α}, (∀ a ∈ l, g a = some (f a)) → l.filterMap g = l.map f := by
  intro l
  induction l with
  | nil => intro _; rfl
  | cons a r ih =>
    intro h
    have h0 := h a (List.mem_cons_self _ _)
    simp only [List.filterMap_cons, h0, List.map_cons]
    rw [ih (fun x hx => h x (List.mem_cons_of_mem _ hx))]

theorem loadPairs_append (a b : List (List Char × List Char)) :
    loadPairs (a ++ b) = loadPairs a ++ loadPairs b := by
  unfold loadPairs
  exact List.filterMap_append _ _ _

set_option maxHeartbeats 1600000 in
theorem loadPairs_items (showInd : Bool) (items : List BItem)
    (h : ∀ it ∈ items, GoodItem it) :
    loadPairs (items.map (anchorOf showInd))
      = items.map (fun it => (it.url, it.title)) := by
  unfold loadPairs
  rw [List.filterMap_map]
  exact filterMap_eq_map_of_some (fun a ha => loadAnchor_anchorOf showInd (h a ha))

theorem loadPairs_sub (showInd : Bool) (subs : List (String × SubNode))
    (h : ∀ skv ∈ subs, ∀ it ∈ skv.2.items, GoodItem it) :
    loadPairs (subs.flatMap (fun skv => skv.2.items.map (anchorOf showInd)))
      = subs.flatMap (fun skv => skv.2.items.map (fun it => (it.url, it.title))) := by
  induction subs with
  | nil => rfl
  | cons skv rest ih =>
    simp only [List.flatMap_cons]
    rw [loadPairs_append, loadPairs_items showInd _ (h skv (List.mem_cons_self _ _)),
      ih (fun x hx => h x (List.mem_cons_of_mem _ hx))]

/-- A one-category tree whose single bookmark title starts with an
indicator emoji. -/
def demoTree : List (String × CatNode) :=
  [("开发", ⟨[⟨"http://x.com", "🔥 X", "", 0⟩], []⟩)]

/-- A tree of good bookmarks with a category item and a subcategory item. -/
def demoTreeW : List (String × CatNode) :=
  [("开发", ⟨[⟨"https://a.io/x", "Docs & Tools", "", 0⟩],
    [("文档", ⟨[⟨"http://b.io", "News", "", 0⟩]⟩)]⟩)]

/-- C5 counterexample: the export/re-parse round trip is NOT the identity
on the set of `(url, title)` pairs.  A title beginning with an indicator
emoji (here `🔥 X`) is cleaned by `_format_bookmark_html` before export,
so the re-parsed pair has title `X` and the original pair is lost. -/
theorem export_reparse_loses_emoji_title :
    treePairs demoTree = [("http://x.com", "🔥 X")] ∧
    loadPairs (generateAnchors false demoTree) = [("http://x.com", "X")] ∧
    ("http://x.com", "🔥 X") ∉ loadPairs (generateAnchors false demoTree) := by
  refine ⟨?_, ?_, ?_⟩ <;> decide

/-- C5 (amended): for trees whose bookmarks all have a valid stripped URL
and a non-empty title that does not begin with an indicator emoji and has
no surrounding whitespace, re-parsing the exported anchors with the
loader logic yields exactly the tree's `(url, title)` pairs (even as a
list, hence as a set). -/
theorem export_reparse_plain (showInd : Bool)
    (organized : List (String × CatNode))
    (h : ∀ it ∈ allItems organized, GoodItem it) :
    loadPairs (generateAnchors showInd organized) = treePairs organized := by
  induction organized with
  | nil => rfl
  | cons kv rest ih =>
    have hitems : ∀ it ∈ kv.2.items, GoodItem it := by
      intro itm hm
      apply h
      unfold allItems
      rw [List.flatMap_cons]
      exact List.mem_append.mpr (Or.inl (List.mem_append.mpr (Or.inl hm)))
    have hsubs : ∀ skv ∈ kv.2.subcategories, ∀ it ∈ skv.2.items, GoodItem it := by
      intro skv hskv itm hm
      apply h
      unfold allItems
      rw [List.flatMap_cons]
      exact List.mem_append.mpr (Or.inl (List.mem_append.mpr
        (Or.inr (List.mem_flatMap.mpr ⟨skv, hskv, hm⟩))))
    have hrest : ∀ it ∈ allItems rest, GoodItem it := by
      intro itm hm
      apply h
      unfold allItems at hm ⊢
      rw [List.flatMap_cons]
      exact List.mem_append.mpr (Or.inr hm)
    have e1 : generateAnchors showInd (kv :: rest)
        = (kv.2.items.map (anchorOf showInd)
            ++ kv.2.subcategories.flatMap (fun skv => skv.2.items.map (anchorOf showInd)))
          ++ generateAnchors showInd rest := by
      unfold generateAnchors
      rw [List.flatMap_cons]
    have e2 : treePairs (kv :: rest)
        = (kv.2.items.map (fun it => (it.url, it.title))
            ++ kv.2.subcategories.flatMap (fun skv =>
              skv.2.items.map (fun it => (it.url, it.title))))
          ++ treePairs rest := by
      unfold treePairs
      rw [List.flatMap_cons]
    rw [e1, e2, loadPairs_append, loadPairs_append,
      loadPairs_items showInd _ hitems, loadPairs_sub showInd _ hsubs, ih hrest]

theorem export_reparse_plain_witness :
    (∀ it ∈ allItems demoTreeW, GoodItem it) ∧
    loadPairs (generateAnchors false demoTreeW) = treePairs demoTreeW :=
  ⟨by unfold GoodItem; decide,
    export_reparse_plain false demoTreeW (by unfold GoodItem; decide)⟩

end CleanBookmarks
